import Mathlib

/-!
Verification of the attendance-aggregation and prayer-status core of the
roza-cli repository (TypeScript). The TypeScript functions are shallowly
embedded as executable Lean definitions:

- JS strings are modeled as lists of characters (type JStr); the JS code-unit
  comparison operators on strings are modeled by lexicographic comparison of
  the character lists, which agrees with JS for the ASCII data handled here.
- JS Date values are modeled by the proleptic Gregorian calendar (type Civil),
  which is the calendar ECMAScript prescribes. Adding n days to a date
  (date.setDate(date.getDate() + n)) is modeled as the n-fold calendar
  successor or predecessor (addDaysCivil); both describe the same shift of the
  day number in the proleptic Gregorian calendar. The ECMAScript quirk that a
  year argument between 0 and 99 is interpreted as 1900 + year is modeled
  explicitly (jsYearShift), as is the formatting asymmetry that the year is
  rendered without zero-padding while month and day are padded to two digits.
- JS Number(s) conversion is modeled on the decimal fragment the repository
  can feed it: the empty string gives 0 and digit strings give their value;
  every other form (including fractional, exponent, hex and signed numerals,
  which none of the verified call sites produce from their inputs) is mapped
  to none, standing for NaN or a non-integral result, both of which every
  verified caller treats identically (they fail the Number.isInteger check).
- Asynchronous inputs (the fetched timing tables, the configured location and
  the wall clock) are modeled as explicit arguments, following the design note
  of the specification that the "now" capability and configuration are to be
  injected explicitly.
-/

namespace Roza

/-- Characters of a JS string, modeled as a list of characters. -/
abbrev JStr := List Char

/-- JS string comparison a < b (code-unit lexicographic order). -/
def strLt : JStr → JStr → Bool
  | [], [] => false
  | [], _ :: _ => true
  | _ :: _, [] => false
  | a :: as, b :: bs => a < b || (a == b && strLt as bs)

/-- JS string comparison a <= b. -/
def strLe (a b : JStr) : Bool := strLt a b || a == b

theorem strLt_irrefl (a : JStr) : strLt a a = false := by
  induction a with
  | nil => rfl
  | cons c cs ih => simp [strLt, ih]

theorem strLt_trichotomy (a b : JStr) :
    strLt a b = true ∨ a = b ∨ strLt b a = true := by
  induction a generalizing b with
  | nil => cases b <;> simp [strLt]
  | cons c cs ih =>
    cases b with
    | nil => simp [strLt]
    | cons d ds =>
      rcases lt_trichotomy c d with h | h | h
      · exact Or.inl (by simp [strLt, h])
      · subst h
        rcases ih ds with h2 | h2 | h2
        · exact Or.inl (by simp [strLt, h2])
        · exact Or.inr (Or.inl (by rw [h2]))
        · exact Or.inr (Or.inr (by simp [strLt, h2]))
      · exact Or.inr (Or.inr (by simp [strLt, h]))

theorem strLt_asymm {a b : JStr} (h : strLt a b = true) : strLt b a = false := by
  induction a generalizing b with
  | nil => cases b <;> simp_all [strLt]
  | cons c cs ih =>
    cases b with
    | nil => simp [strLt] at h
    | cons d ds =>
      simp only [strLt, Bool.or_eq_true, Bool.and_eq_true, beq_iff_eq,
        decide_eq_true_eq] at h
      rcases h with h | ⟨rfl, h⟩
      · simp [strLt, asymm h, ne_of_gt h]
      · simp [strLt, lt_irrefl, ih h]

theorem strLt_trans {a b c : JStr} (h1 : strLt a b = true) (h2 : strLt b c = true) :
    strLt a c = true := by
  induction a generalizing b c with
  | nil =>
    cases b with
    | nil => simp [strLt] at h1
    | cons d ds => cases c with
      | nil => simp [strLt] at h2
      | cons e es => simp [strLt]
  | cons x xs ih =>
    cases b with
    | nil => simp [strLt] at h1
    | cons d ds =>
      cases c with
      | nil => simp [strLt] at h2
      | cons e es =>
        simp only [strLt, Bool.or_eq_true, Bool.and_eq_true, beq_iff_eq,
          decide_eq_true_eq] at h1 h2 ⊢
        rcases h1 with h1 | ⟨rfl, h1⟩
        · rcases h2 with h2 | ⟨rfl, h2⟩
          · exact Or.inl (lt_trans h1 h2)
          · exact Or.inl h1
        · rcases h2 with h2 | ⟨rfl, h2⟩
          · exact Or.inl h2
          · exact Or.inr ⟨rfl, ih h1 h2⟩

theorem strLe_refl (a : JStr) : strLe a a = true := by simp [strLe]

theorem strLe_total (a b : JStr) : (strLe a b || strLe b a) = true := by
  rcases strLt_trichotomy a b with h | h | h
  · simp [strLe, h]
  · simp [strLe, h]
  · simp [strLe, h]

theorem strLe_trans {a b c : JStr} (h1 : strLe a b = true) (h2 : strLe b c = true) :
    strLe a c = true := by
  simp only [strLe, Bool.or_eq_true, beq_iff_eq] at h1 h2 ⊢
  rcases h1 with h1 | rfl
  · rcases h2 with h2 | rfl
    · exact Or.inl (strLt_trans h1 h2)
    · exact Or.inl h1
  · exact h2

theorem strLe_antisymm {a b : JStr} (h1 : strLe a b = true) (h2 : strLe b a = true) :
    a = b := by
  simp only [strLe, Bool.or_eq_true, beq_iff_eq] at h1 h2
  rcases h1 with h1 | rfl
  · rcases h2 with h2 | rfl
    · exact absurd h2 (by simp [strLt_asymm h1])
    · rfl
  · rfl

theorem strLe_of_strLt {a b : JStr} (h : strLt a b = true) : strLe a b = true := by
  simp [strLe, h]

theorem not_strLe_of_strLt {a b : JStr} (h : strLt a b = true) : strLe b a = false := by
  simp only [strLe, Bool.or_eq_false_iff, beq_eq_false_iff_ne]
  exact ⟨strLt_asymm h, fun e => by subst e; simp [strLt_irrefl] at h⟩

/-- Decimal digit characters, as produced by JS String(n). -/
def dChar : Nat → Char
  | 0 => '0' | 1 => '1' | 2 => '2' | 3 => '3' | 4 => '4'
  | 5 => '5' | 6 => '6' | 7 => '7' | 8 => '8' | _ => '9'

/-- The character class of the regex digit shorthand: decimal digit test. -/
def isDigitCh (c : Char) : Bool := 48 ≤ c.toNat && c.toNat ≤ 57

/-- Numeric value of a digit character. -/
def digitVal (c : Char) : Nat := c.toNat - 48

theorem digitVal_le_of_digit {c : Char} (h : isDigitCh c = true) : digitVal c ≤ 9 := by
  simp only [isDigitCh, Bool.and_eq_true, decide_eq_true_eq] at h
  simp only [digitVal]
  omega

theorem digitVal_dChar {n : Nat} (h : n ≤ 9) : digitVal (dChar n) = n := by
  interval_cases n <;> rfl

theorem dChar_isDigit {n : Nat} (h : n ≤ 9) : isDigitCh (dChar n) = true := by
  interval_cases n <;> rfl

theorem dChar_ne_dash {n : Nat} (h : n ≤ 9) : dChar n ≠ '-' := by
  interval_cases n <;> decide

theorem dChar_inj {a b : Nat} (ha : a ≤ 9) (hb : b ≤ 9) (h : dChar a = dChar b) : a = b := by
  interval_cases a <;> interval_cases b <;> first | rfl | (exact absurd h (by decide))

theorem dChar_lt_iff {a b : Nat} (ha : a ≤ 9) (hb : b ≤ 9) :
    dChar a < dChar b ↔ a < b := by
  interval_cases a <;> interval_cases b <;> simp_all <;> decide

/-- Recursion core for decimal rendering; the first argument is fuel that
dominates the number, so the recursion is structural and kernel-reducible. -/
def natDigitsAux : Nat → Nat → List Char
  | 0, _ => []
  | fuel + 1, n =>
    if n < 10 then [dChar n]
    else natDigitsAux fuel (n / 10) ++ [dChar (n % 10)]

/-- Decimal digit list of a natural number, as JS String(n) renders a
nonnegative integer (no padding, no sign). -/
def natDigits (n : Nat) : List Char := natDigitsAux (n + 1) n

/-- Value of a digit list read as a decimal numeral. -/
def digitsVal (cs : List Char) : Nat := cs.foldl (fun a c => a * 10 + digitVal c) 0

/-- Whether every character of the list is a decimal digit. -/
def allDigits (cs : List Char) : Bool := cs.all isDigitCh

theorem digitsVal_foldl (a : Nat) (cs : List Char) :
    cs.foldl (fun x c => x * 10 + digitVal c) a = a * 10 ^ cs.length + digitsVal cs := by
  induction cs generalizing a with
  | nil => simp [digitsVal]
  | cons c cs ih =>
    simp only [List.foldl_cons, List.length_cons, digitsVal]
    rw [ih (a * 10 + digitVal c), ih (0 * 10 + digitVal c)]
    ring

theorem digitsVal_cons (c : Char) (cs : List Char) :
    digitsVal (c :: cs) = digitVal c * 10 ^ cs.length + digitsVal cs := by
  simpa [digitsVal] using digitsVal_foldl (digitVal c) cs

theorem digitsVal_append_singleton (cs : List Char) (c : Char) :
    digitsVal (cs ++ [c]) = digitsVal cs * 10 + digitVal c := by
  simp only [digitsVal, List.foldl_append, List.foldl_cons, List.foldl_nil]

theorem digitsVal_lt (cs : List Char) (h : allDigits cs = true) :
    digitsVal cs < 10 ^ cs.length := by
  induction cs with
  | nil => simp [digitsVal]
  | cons c cs ih =>
    simp only [allDigits, List.all_cons, Bool.and_eq_true] at h
    have hc : digitVal c ≤ 9 := digitVal_le_of_digit h.1
    have := ih (by simpa [allDigits] using h.2)
    rw [digitsVal_cons, List.length_cons, pow_succ]
    calc digitVal c * 10 ^ cs.length + digitsVal cs
        < digitVal c * 10 ^ cs.length + 10 ^ cs.length := by omega
      _ = (digitVal c + 1) * 10 ^ cs.length := by ring
      _ ≤ 10 * 10 ^ cs.length := by
          have : digitVal c + 1 ≤ 10 := by omega
          exact Nat.mul_le_mul_right _ this
      _ = 10 ^ cs.length * 10 := by ring

theorem natDigitsAux_irrel (fuel1 fuel2 n : Nat) (h1 : n < fuel1) (h2 : n < fuel2) :
    natDigitsAux fuel1 n = natDigitsAux fuel2 n := by
  induction fuel1 generalizing fuel2 n with
  | zero => omega
  | succ f1 ih =>
    cases fuel2 with
    | zero => omega
    | succ f2 =>
      simp only [natDigitsAux]
      split_ifs with h
      · rfl
      · have hdiv : n / 10 < n := Nat.div_lt_self (by omega) (by omega)
        rw [ih f2 (n / 10) (by omega) (by omega)]

theorem natDigits_step (n : Nat) :
    natDigits n = if n < 10 then [dChar n] else natDigits (n / 10) ++ [dChar (n % 10)] := by
  unfold natDigits
  conv_lhs => rw [natDigitsAux]
  split_ifs with h
  · rfl
  · have hdiv : n / 10 < n := Nat.div_lt_self (by omega) (by omega)
    rw [natDigitsAux_irrel n (n / 10 + 1) (n / 10) (by omega) (by omega)]

theorem natDigits_spec (n : Nat) :
    digitsVal (natDigits n) = n ∧ allDigits (natDigits n) = true ∧ natDigits n ≠ [] := by
  induction n using Nat.strong_induction_on with
  | _ n ih =>
    by_cases h : n < 10
    · rw [natDigits_step, if_pos h]
      refine ⟨?_, ?_, by simp⟩
      · simp [digitsVal, digitVal_dChar (by omega : n ≤ 9)]
      · simp [allDigits, dChar_isDigit (by omega : n ≤ 9)]
    · rw [natDigits_step, if_neg h]
      have hdiv : n / 10 < n := Nat.div_lt_self (by omega) (by omega)
      obtain ⟨h1, h2, _⟩ := ih (n / 10) hdiv
      refine ⟨?_, ?_, by simp⟩
      · rw [digitsVal_append_singleton, h1, digitVal_dChar (by omega : n % 10 ≤ 9)]
        omega
      · simp only [allDigits, List.all_append, Bool.and_eq_true]
        exact ⟨h2, by simp [dChar_isDigit (by omega : n % 10 ≤ 9)]⟩

theorem digitsVal_natDigits (n : Nat) : digitsVal (natDigits n) = n := (natDigits_spec n).1

theorem allDigits_natDigits (n : Nat) : allDigits (natDigits n) = true := (natDigits_spec n).2.1

theorem natDigits_ne_nil (n : Nat) : natDigits n ≠ [] := (natDigits_spec n).2.2

/-- The JS Number(s) conversion restricted to the decimal-digit fragment:
the empty string converts to 0 and a string of decimal digits converts to
its value; every other string maps to none. This total fragment covers every
string the verified date-key paths feed it (the dash-split parts of date
keys). A validator that receives raw command-line input is instead
parameterized by the conversion, because there the full ECMAScript numeric
grammar (hex, exponent, signed, whitespace and fractional forms) applies. -/
def jsNumber (cs : JStr) : Option Int :=
  if cs.isEmpty then some 0
  else if allDigits cs then some (digitsVal cs) else none

theorem jsNumber_natDigits (n : Nat) : jsNumber (natDigits n) = some (n : Int) := by
  have h1 := digitsVal_natDigits n
  have h2 := allDigits_natDigits n
  have h3 := natDigits_ne_nil n
  simp [jsNumber, List.isEmpty_iff, h1, h2, h3]

/-! ## The proleptic Gregorian calendar

ECMAScript Date values live on the proleptic Gregorian calendar. We model a
calendar date by its year, month and day fields. -/

/-- Gregorian leap-year test. -/
def isLeap (y : Int) : Bool := y % 4 == 0 && (y % 100 != 0 || y % 400 == 0)

/-- Number of days of month m of year y (for m between 1 and 12). -/
def daysInMonth (y m : Int) : Int :=
  if m = 2 then (if isLeap y then 29 else 28)
  else if m = 4 ∨ m = 6 ∨ m = 9 ∨ m = 11 then 30 else 31

theorem daysInMonth_pos (y m : Int) : 1 ≤ daysInMonth y m := by
  unfold daysInMonth
  split_ifs <;> omega

theorem daysInMonth_le (y m : Int) : daysInMonth y m ≤ 31 := by
  unfold daysInMonth
  split_ifs <;> omega

/-- A date of the proleptic Gregorian calendar, as year, month (1 to 12) and
day-of-month fields; the field model of a JS Date at a fixed instant of its
day. -/
structure Civil where
  y : Int
  m : Int
  d : Int
deriving DecidableEq

/-- The field triple denotes an actual calendar date. -/
def Civil.valid : Civil → Prop
  | ⟨y, m, d⟩ => 1 ≤ m ∧ m ≤ 12 ∧ 1 ≤ d ∧ d ≤ daysInMonth y m

instance (c : Civil) : Decidable c.valid := by
  obtain ⟨y, m, d⟩ := c
  unfold Civil.valid
  infer_instance

/-- Calendar successor: the next day. -/
def civSucc : Civil → Civil
  | ⟨y, m, d⟩ =>
    if d < daysInMonth y m then ⟨y, m, d + 1⟩
    else if m < 12 then ⟨y, m + 1, 1⟩
    else ⟨y + 1, 1, 1⟩

/-- Calendar predecessor: the previous day. -/
def civPred : Civil → Civil
  | ⟨y, m, d⟩ =>
    if 1 < d then ⟨y, m, d - 1⟩
    else if 1 < m then ⟨y, m - 1, daysInMonth y (m - 1)⟩
    else ⟨y - 1, 12, 31⟩

theorem civSucc_valid {c : Civil} (h : c.valid) : (civSucc c).valid := by
  obtain ⟨y, m, d⟩ := c
  simp only [Civil.valid] at h
  obtain ⟨h1, h2, h3, h4⟩ := h
  have hp1 := daysInMonth_pos y (m + 1)
  have hp2 : daysInMonth (y + 1) 1 = 31 := by simp [daysInMonth]
  simp only [civSucc]
  split_ifs with hd hm <;> simp only [Civil.valid] <;> omega

theorem civPred_valid {c : Civil} (h : c.valid) : (civPred c).valid := by
  obtain ⟨y, m, d⟩ := c
  simp only [Civil.valid] at h
  obtain ⟨h1, h2, h3, h4⟩ := h
  have hp1 := daysInMonth_pos y (m - 1)
  have hp2 : daysInMonth (y - 1) 12 = 31 := by simp [daysInMonth]
  simp only [civPred]
  split_ifs with hd hm <;> simp only [Civil.valid] <;> omega

theorem civPred_civSucc {c : Civil} (h : c.valid) : civPred (civSucc c) = c := by
  obtain ⟨y, m, d⟩ := c
  simp only [Civil.valid] at h
  obtain ⟨h1, h2, h3, h4⟩ := h
  simp only [civSucc]
  split_ifs with hd hm
  · simp only [civPred]
    rw [if_pos (by omega)]
    simp only [Civil.mk.injEq, true_and, and_true]
    all_goals omega
  · simp only [civPred]
    rw [if_neg (by omega), if_pos (by omega)]
    simp only [Civil.mk.injEq, add_sub_cancel_right, true_and, and_true]
    all_goals omega
  · have hm12 : m = 12 := by omega
    subst hm12
    have hp12 : daysInMonth y 12 = 31 := by simp [daysInMonth]
    rw [hp12] at hd h4
    simp only [civPred]
    rw [if_neg (by omega), if_neg (by omega)]
    simp only [Civil.mk.injEq, add_sub_cancel_right, true_and, and_true]
    all_goals omega

theorem civSucc_civPred {c : Civil} (h : c.valid) : civSucc (civPred c) = c := by
  obtain ⟨y, m, d⟩ := c
  simp only [Civil.valid] at h
  obtain ⟨h1, h2, h3, h4⟩ := h
  simp only [civPred]
  split_ifs with hd hm
  · simp only [civSucc]
    rw [if_pos (by omega)]
    simp only [Civil.mk.injEq, true_and, and_true]
    all_goals omega
  · simp only [civSucc]
    rw [if_neg (by omega), if_pos (by omega)]
    simp only [Civil.mk.injEq, sub_add_cancel, true_and, and_true]
    all_goals omega
  · have hm1 : m = 1 := by omega
    have hd1 : d = 1 := by omega
    subst hm1
    subst hd1
    have hp12 : daysInMonth (y - 1) 12 = 31 := by simp [daysInMonth]
    simp only [civSucc]
    rw [if_neg (by rw [hp12]; omega), if_neg (by omega)]
    simp only [Civil.mk.injEq, sub_add_cancel, true_and, and_true]

/-- Strict chronological order on calendar dates (lexicographic on fields). -/
def civLt : Civil → Civil → Prop
  | ⟨y, m, d⟩, ⟨y2, m2, d2⟩ => y < y2 ∨ (y = y2 ∧ (m < m2 ∨ (m = m2 ∧ d < d2)))

/-- Chronological order on calendar dates. -/
def civLe (a b : Civil) : Prop := civLt a b ∨ a = b

instance (a b : Civil) : Decidable (civLt a b) := by
  obtain ⟨y, m, d⟩ := a
  obtain ⟨y2, m2, d2⟩ := b
  unfold civLt
  infer_instance

instance (a b : Civil) : Decidable (civLe a b) := by unfold civLe; infer_instance

theorem civLt_irrefl (a : Civil) : ¬civLt a a := by
  obtain ⟨y, m, d⟩ := a
  simp [civLt]

theorem civLt_trans {a b c : Civil} (h1 : civLt a b) (h2 : civLt b c) : civLt a c := by
  obtain ⟨y, m, d⟩ := a
  obtain ⟨y2, m2, d2⟩ := b
  obtain ⟨y3, m3, d3⟩ := c
  simp only [civLt] at *
  omega

theorem civLt_trichotomy (a b : Civil) : civLt a b ∨ a = b ∨ civLt b a := by
  obtain ⟨y, m, d⟩ := a
  obtain ⟨y2, m2, d2⟩ := b
  simp only [civLt, Civil.mk.injEq]
  omega

theorem civLe_trans {a b c : Civil} (h1 : civLe a b) (h2 : civLe b c) : civLe a c := by
  rcases h1 with h1 | rfl
  · rcases h2 with h2 | rfl
    · exact Or.inl (civLt_trans h1 h2)
    · exact Or.inl h1
  · exact h2

theorem civLt_civSucc (c : Civil) : civLt c (civSucc c) := by
  obtain ⟨y, m, d⟩ := c
  simp only [civSucc]
  split_ifs <;> simp only [civLt, true_and, and_true] <;> all_goals omega

/-- Discreteness: the calendar successor is the immediate next date. -/
theorem civSucc_le_of_lt {a b : Civil} (ha : a.valid) (hb : b.valid)
    (h : civLt a b) : civLe (civSucc a) b := by
  obtain ⟨y, m, d⟩ := a
  obtain ⟨y2, m2, d2⟩ := b
  simp only [Civil.valid] at ha hb
  obtain ⟨ha1, ha2, ha3, ha4⟩ := ha
  obtain ⟨hb1, hb2, hb3, hb4⟩ := hb
  simp only [civLt] at h
  simp only [civSucc]
  rcases h with hy | ⟨rfl, hm2 | ⟨rfl, hd2⟩⟩ <;>
    split_ifs with hd hm <;>
      simp only [civLe, civLt, Civil.mk.injEq, true_and, and_true] <;> all_goals omega

/-- Number of Gregorian leap years in the range from 1 to y (for nonnegative
y); extended by the same floor-division formula to negative arguments. -/
def leapsUpTo (y : Int) : Int := y / 4 - y / 100 + y / 400

theorem leapsUpTo_step (y : Int) :
    leapsUpTo y - leapsUpTo (y - 1) = if isLeap y then 1 else 0 := by
  unfold leapsUpTo isLeap
  split_ifs with h
  · simp only [Bool.and_eq_true, Bool.or_eq_true, beq_iff_eq, bne_iff_ne] at h
    obtain ⟨h4, h100⟩ := h
    rcases h100 with h100 | h400 <;> omega
  · simp only [Bool.and_eq_true, Bool.or_eq_true, beq_iff_eq, bne_iff_ne,
      not_and_or, not_or, not_not] at h
    rcases h with h4 | ⟨h100, h400⟩ <;> omega

theorem leapsUpTo_step_nonneg (y : Int) : 0 ≤ leapsUpTo y - leapsUpTo (y - 1) := by
  rw [leapsUpTo_step]
  split <;> omega

theorem leapsUpTo_mono {a b : Int} (h : a ≤ b) : leapsUpTo a ≤ leapsUpTo b := by
  have H : ∀ n : Nat, leapsUpTo a ≤ leapsUpTo (a + n) := by
    intro n
    induction n with
    | zero => simp
    | succ k ih =>
      have h2 := leapsUpTo_step_nonneg (a + k + 1)
      have h3 : (a + k : Int) + 1 - 1 = a + k := by ring
      rw [h3] at h2
      have h4 : a + ((k + 1 : Nat) : Int) = a + k + 1 := by push_cast; ring
      rw [h4]
      omega
  have hb : b = a + ((b - a).toNat : Int) := by omega
  rw [hb]
  exact H _

/-- Cumulative number of days before month m in year y (for m from 1 to 12). -/
def daysBeforeMonth (y m : Int) : Int :=
  (if m = 1 then 0 else if m = 2 then 31 else if m = 3 then 59
   else if m = 4 then 90 else if m = 5 then 120 else if m = 6 then 151
   else if m = 7 then 181 else if m = 8 then 212 else if m = 9 then 243
   else if m = 10 then 273 else if m = 11 then 304 else 334)
  + (if 2 < m ∧ isLeap y = true then 1 else 0)

/-- Linear day number of a calendar date (rata die style): day 1 is the first
of January of year 1. Consecutive calendar dates get consecutive numbers. -/
def toDayNumber (c : Civil) : Int :=
  365 * (c.y - 1) + leapsUpTo (c.y - 1) + daysBeforeMonth c.y c.m + c.d

theorem daysBeforeMonth_succ {y m : Int} (h1 : 1 ≤ m) (h2 : m ≤ 11) :
    daysBeforeMonth y (m + 1) = daysBeforeMonth y m + daysInMonth y m := by
  unfold daysBeforeMonth daysInMonth
  interval_cases m <;> cases h : isLeap y <;> simp [h]

theorem toDayNumber_civSucc {c : Civil} (h : c.valid) :
    toDayNumber (civSucc c) = toDayNumber c + 1 := by
  obtain ⟨y, m, d⟩ := c
  simp only [Civil.valid] at h
  obtain ⟨h1, h2, h3, h4⟩ := h
  simp only [civSucc]
  split_ifs with hd hm
  · simp only [toDayNumber]
    omega
  · have hstep := daysBeforeMonth_succ (y := y) h1 (by omega)
    simp only [toDayNumber]
    omega
  · have hm12 : m = 12 := by omega
    subst hm12
    have hd31 : d = 31 := by
      have hq : daysInMonth y 12 = 31 := by simp [daysInMonth]
      rw [hq] at hd h4
      omega
    subst hd31
    have hstep := leapsUpTo_step y
    have hdb1 : daysBeforeMonth (y + 1) 1 = 0 := by simp [daysBeforeMonth]
    have hdb12 : daysBeforeMonth y 12 = 334 + (if isLeap y = true then 1 else 0) := by
      unfold daysBeforeMonth
      norm_num
    simp only [toDayNumber]
    rw [hdb1, hdb12]
    simp only [add_sub_cancel_right]
    split_ifs at hstep ⊢ <;> omega

theorem toDayNumber_civPred {c : Civil} (h : c.valid) :
    toDayNumber (civPred c) = toDayNumber c - 1 := by
  have h2 := toDayNumber_civSucc (civPred_valid h)
  rw [civSucc_civPred h] at h2
  omega


/-- Within a year, the day number is bounded by the end of the year. -/
theorem toDayNumber_mono {a b : Civil} (ha : a.valid) (hb : b.valid)
    (h : civLt a b) : toDayNumber a < toDayNumber b := by
  obtain ⟨y, m, d⟩ := a
  obtain ⟨y2, m2, d2⟩ := b
  simp only [Civil.valid] at ha hb
  obtain ⟨ha1, ha2, ha3, ha4⟩ := ha
  obtain ⟨hb1, hb2, hb3, hb4⟩ := hb
  simp only [civLt] at h
  have key : ∀ yy mm mm2 : Int, 1 ≤ mm → mm < mm2 → mm2 ≤ 12 →
      daysBeforeMonth yy mm + daysInMonth yy mm ≤ daysBeforeMonth yy mm2 := by
    intro yy mm mm2 hm1 hmm hm2
    have hstep : ∀ k : Int, 1 ≤ k → k ≤ 11 →
        daysBeforeMonth yy (k + 1) = daysBeforeMonth yy k + daysInMonth yy k :=
      fun k hk1 hk2 => daysBeforeMonth_succ hk1 hk2
    have hpos : ∀ k : Int, 1 ≤ daysInMonth yy k := fun k => daysInMonth_pos yy k
    have h1 := hstep 1
    have h2 := hstep 2
    have h3 := hstep 3
    have h4 := hstep 4
    have h5 := hstep 5
    have h6 := hstep 6
    have h7 := hstep 7
    have h8 := hstep 8
    have h9 := hstep 9
    have h10 := hstep 10
    have h11 := hstep 11
    simp only [show (1 : Int) + 1 = 2 by norm_num, show (2 : Int) + 1 = 3 by norm_num,
      show (3 : Int) + 1 = 4 by norm_num, show (4 : Int) + 1 = 5 by norm_num,
      show (5 : Int) + 1 = 6 by norm_num, show (6 : Int) + 1 = 7 by norm_num,
      show (7 : Int) + 1 = 8 by norm_num, show (8 : Int) + 1 = 9 by norm_num,
      show (9 : Int) + 1 = 10 by norm_num, show (10 : Int) + 1 = 11 by norm_num,
      show (11 : Int) + 1 = 12 by norm_num] at h1 h2 h3 h4 h5 h6 h7 h8 h9 h10 h11
    have p1 := hpos 1
    have p2 := hpos 2
    have p3 := hpos 3
    have p4 := hpos 4
    have p5 := hpos 5
    have p6 := hpos 6
    have p7 := hpos 7
    have p8 := hpos 8
    have p9 := hpos 9
    have p10 := hpos 10
    have p11 := hpos 11
    have p12 := hpos 12
    have hmmu : mm ≤ 11 := by omega
    have hmm2l : 2 ≤ mm2 := by omega
    interval_cases mm <;> interval_cases mm2 <;> omega
  rcases h with hy | ⟨rfl, hm | ⟨rfl, hd⟩⟩
  · -- different years: bound through the year boundary
    have hy1 : toDayNumber ⟨y, m, d⟩ < toDayNumber ⟨y + 1, 1, 1⟩ := by
      have hin : daysBeforeMonth y m + d ≤ daysBeforeMonth y 12 + daysInMonth y 12 := by
        rcases lt_or_eq_of_le ha2 with hlt | rfl
        · have := key y m 12 ha1 hlt (le_refl _)
          have hp := daysInMonth_pos y 12
          omega
        · omega
      have hA : daysBeforeMonth y 12 = 334 + (if isLeap y = true then 1 else 0) := by
        unfold daysBeforeMonth
        norm_num
      have hB : daysInMonth y 12 = 31 := by simp [daysInMonth]
      have hstep := leapsUpTo_step y
      have hdb1 : daysBeforeMonth (y + 1) 1 = 0 := by simp [daysBeforeMonth]
      simp only [toDayNumber, hdb1]
      have hc : (y + 1 : Int) - 1 = y := by ring
      rw [hc]
      rw [hA, hB] at hin
      split_ifs at hin hstep <;> omega
    have hy2 : toDayNumber ⟨y + 1, 1, 1⟩ ≤ toDayNumber ⟨y2, 1, 1⟩ := by
      have hmono := leapsUpTo_mono (a := y) (b := y2 - 1) (by omega)
      have hdbA : daysBeforeMonth (y + 1) 1 = 0 := by simp [daysBeforeMonth]
      have hdbB : daysBeforeMonth y2 1 = 0 := by simp [daysBeforeMonth]
      simp only [toDayNumber, hdbA, hdbB]
      have hc : (y + 1 : Int) - 1 = y := by ring
      rw [hc]
      omega
    have hy3 : toDayNumber ⟨y2, 1, 1⟩ ≤ toDayNumber ⟨y2, m2, d2⟩ := by
      rcases lt_or_eq_of_le hb1 with hlt | rfl
      · have := key y2 1 m2 (le_refl _) hlt hb2
        have hp := daysInMonth_pos y2 1
        simp only [toDayNumber]
        omega
      · simp only [toDayNumber]
        omega
    omega
  · -- same year, earlier month
    have := key y m m2 ha1 hm hb2
    simp only [toDayNumber]
    omega
  · -- same year and month, earlier day
    simp only [toDayNumber]
    omega

theorem toDayNumber_mono_le {a b : Civil} (ha : a.valid) (hb : b.valid)
    (h : civLe a b) : toDayNumber a ≤ toDayNumber b := by
  rcases h with h | rfl
  · exact le_of_lt (toDayNumber_mono ha hb h)
  · exact le_refl _

theorem civLt_of_toDayNumber_lt {a b : Civil} (ha : a.valid) (hb : b.valid)
    (h : toDayNumber a < toDayNumber b) : civLt a b := by
  rcases civLt_trichotomy a b with hc | rfl | hc
  · exact hc
  · omega
  · have := toDayNumber_mono hb ha hc
    omega

theorem toDayNumber_inj {a b : Civil} (ha : a.valid) (hb : b.valid)
    (h : toDayNumber a = toDayNumber b) : a = b := by
  rcases civLt_trichotomy a b with hc | rfl | hc
  · have := toDayNumber_mono ha hb hc
    omega
  · rfl
  · have := toDayNumber_mono hb ha hc
    omega

/-- Shifting a calendar date by an integer number of days: the n-fold
calendar successor (or predecessor, for negative n). This models what the
ECMAScript day-field arithmetic date.setDate(date.getDate() + n) performs on
the proleptic Gregorian calendar. -/
def addDaysCivil (c : Civil) (n : Int) : Civil :=
  if 0 ≤ n then civSucc^[n.toNat] c else civPred^[(-n).toNat] c

theorem iterate_civSucc_valid {c : Civil} (h : c.valid) (k : Nat) :
    (civSucc^[k] c).valid := by
  induction k with
  | zero => simpa using h
  | succ j ih =>
    rw [Function.iterate_succ_apply']
    exact civSucc_valid ih

theorem iterate_civPred_valid {c : Civil} (h : c.valid) (k : Nat) :
    (civPred^[k] c).valid := by
  induction k with
  | zero => simpa using h
  | succ j ih =>
    rw [Function.iterate_succ_apply']
    exact civPred_valid ih

theorem addDaysCivil_valid {c : Civil} (h : c.valid) (n : Int) :
    (addDaysCivil c n).valid := by
  unfold addDaysCivil
  split_ifs
  · exact iterate_civSucc_valid h _
  · exact iterate_civPred_valid h _

theorem toDayNumber_iterate_civSucc {c : Civil} (h : c.valid) (k : Nat) :
    toDayNumber (civSucc^[k] c) = toDayNumber c + k := by
  induction k with
  | zero => simp
  | succ j ih =>
    rw [Function.iterate_succ_apply', toDayNumber_civSucc (iterate_civSucc_valid h j), ih]
    push_cast
    ring

theorem toDayNumber_iterate_civPred {c : Civil} (h : c.valid) (k : Nat) :
    toDayNumber (civPred^[k] c) = toDayNumber c - k := by
  induction k with
  | zero => simp
  | succ j ih =>
    rw [Function.iterate_succ_apply', toDayNumber_civPred (iterate_civPred_valid h j), ih]
    push_cast
    ring

theorem toDayNumber_addDaysCivil {c : Civil} (h : c.valid) (n : Int) :
    toDayNumber (addDaysCivil c n) = toDayNumber c + n := by
  unfold addDaysCivil
  split_ifs with hn
  · rw [toDayNumber_iterate_civSucc h]
    omega
  · rw [toDayNumber_iterate_civPred h]
    omega

theorem addDaysCivil_zero (c : Civil) : addDaysCivil c 0 = c := by
  simp [addDaysCivil]

theorem addDaysCivil_neg_cancel {c : Civil} (h : c.valid) (n : Int) :
    addDaysCivil (addDaysCivil c n) (-n) = c := by
  have hv := addDaysCivil_valid h n
  apply toDayNumber_inj (addDaysCivil_valid hv (-n)) h
  rw [toDayNumber_addDaysCivil hv, toDayNumber_addDaysCivil h]
  ring

theorem addDaysCivil_succ {c : Civil} (k : Nat) :
    addDaysCivil c ((k : Int) + 1) = civSucc (addDaysCivil c k) := by
  unfold addDaysCivil
  rw [if_pos (by omega), if_pos (by omega)]
  have h1 : ((k : Int) + 1).toNat = k + 1 := by omega
  have h2 : ((k : Int)).toNat = k := by omega
  rw [h1, h2, Function.iterate_succ_apply']

/-- Shifting a date within its month: stepping from the first of the month. -/
theorem addDaysCivil_within_month {y m d : Int} (h : (Civil.mk y m d).valid) :
    addDaysCivil ⟨y, m, 1⟩ (d - 1) = ⟨y, m, d⟩ := by
  simp only [Civil.valid] at h
  obtain ⟨h1, h2, h3, h4⟩ := h
  have key : ∀ k : Nat, (k : Int) + 1 ≤ daysInMonth y m →
      civSucc^[k] ⟨y, m, 1⟩ = ⟨y, m, 1 + k⟩ := by
    intro k
    induction k with
    | zero => simp
    | succ j ih =>
      intro hk
      push_cast at hk
      rw [Function.iterate_succ_apply', ih (by omega)]
      simp only [civSucc]
      rw [if_pos (by omega)]
      simp only [Civil.mk.injEq, true_and, and_true]
      push_cast
      ring
  unfold addDaysCivil
  rw [if_pos (by omega)]
  have hk : (d - 1).toNat = (d - 1).toNat := rfl
  have hcast : ((d - 1).toNat : Int) = d - 1 := by omega
  rw [key (d - 1).toNat (by omega)]
  simp only [Civil.mk.injEq, true_and, and_true]
  omega


/-! ## Date-key strings

The repository stores calendar days as YYYY-MM-DD strings. We model the
formatting and parsing that the TypeScript source performs on them. -/

/-- JS String(n).padStart(2, zero) for the nonnegative month and day fields
(the only arguments the source applies it to). -/
def pad2 (n : Int) : JStr :=
  if n < 10 then '0' :: natDigits n.toNat else natDigits n.toNat

/-- JS String(n) for an integer: decimal digits, minus sign for negatives,
no padding. -/
def fmtYear (y : Int) : JStr :=
  if y < 0 then '-' :: natDigits (-y).toNat else natDigits y.toNat

/-- The template-string date formatting of addDays in ramadan-utils.ts (and
formatDateKey in date-utils.ts): year unpadded, month and day padded to two
digits, joined with dashes. -/
def fmtKey (c : Civil) : JStr :=
  fmtYear c.y ++ '-' :: (pad2 c.m ++ '-' :: pad2 c.d)

/-- Four-digit zero-padded year. -/
def pad4 (y : Int) : JStr :=
  if y < 10 then '0' :: '0' :: '0' :: natDigits y.toNat
  else if y < 100 then '0' :: '0' :: natDigits y.toNat
  else if y < 1000 then '0' :: natDigits y.toNat
  else natDigits y.toNat

/-- Canonical YYYY-MM-DD date-key of a calendar date (four-digit year), the
storage format of date keys in the repository. -/
def fmtKey4 (c : Civil) : JStr :=
  pad4 c.y ++ '-' :: (pad2 c.m ++ '-' :: pad2 c.d)

/-- JS value.split with a dash separator. -/
def splitOnDash : JStr → List JStr
  | [] => [[]]
  | c :: rest =>
    if c = '-' then [] :: splitOnDash rest
    else
      match splitOnDash rest with
      | [] => [[c]]
      | p :: more => (c :: p) :: more

/-- Whether the string contains no dash. -/
def noDash (cs : JStr) : Bool := cs.all (fun c => c != '-')

theorem splitOnDash_ne_nil (cs : JStr) : splitOnDash cs ≠ [] := by
  induction cs with
  | nil => simp [splitOnDash]
  | cons c rest ih =>
    simp only [splitOnDash]
    split_ifs
    · simp
    · match hm : splitOnDash rest with
      | [] => simp
      | p :: more => simp

theorem splitOnDash_noDash {cs : JStr} (h : noDash cs = true) :
    splitOnDash cs = [cs] := by
  induction cs with
  | nil => rfl
  | cons c rest ih =>
    simp only [noDash, List.all_cons, Bool.and_eq_true, bne_iff_ne] at h
    obtain ⟨hc, hrest⟩ := h
    simp only [splitOnDash]
    rw [if_neg hc]
    rw [ih (by simpa [noDash] using hrest)]

theorem splitOnDash_append {xs ys : JStr} (h : noDash xs = true) :
    splitOnDash (xs ++ '-' :: ys) = xs :: splitOnDash ys := by
  induction xs with
  | nil =>
    simp [splitOnDash]
  | cons c rest ih =>
    simp only [noDash, List.all_cons, Bool.and_eq_true, bne_iff_ne] at h
    obtain ⟨hc, hrest⟩ := h
    simp only [List.cons_append, splitOnDash, List.append_eq]
    rw [if_neg hc, ih (by simpa [noDash] using hrest)]

theorem noDash_of_allDigits {cs : JStr} (h : allDigits cs = true) : noDash cs = true := by
  simp only [allDigits, List.all_eq_true] at h
  simp only [noDash, List.all_eq_true, bne_iff_ne]
  intro c hc
  intro he
  subst he
  have := h _ hc
  simp [isDigitCh] at this

theorem digitsVal_zero_cons (cs : List Char) : digitsVal ('0' :: cs) = digitsVal cs := by
  rw [digitsVal_cons]
  have : digitVal '0' = 0 := rfl
  simp [this]

/-- Parsing dateKey.split(dash).map(Number) and destructuring the first three
components, as addDays in ramadan-utils.ts does. The none result models a
missing component (undefined) or a NaN conversion, either of which makes the
subsequent Date construction invalid; no input verified below reaches that
branch. -/
def parseKeyParts (cs : JStr) : Option (Int × Int × Int) :=
  match splitOnDash cs with
  | ys :: ms :: ds :: _ =>
    match jsNumber ys, jsNumber ms, jsNumber ds with
    | some yv, some mv, some dv => some (yv, mv, dv)
    | _, _, _ => none
  | _ => none

theorem jsNumber_pad2 {m : Int} (h0 : 0 ≤ m) (h99 : m ≤ 99) :
    jsNumber (pad2 m) = some m := by
  unfold pad2
  split_ifs with hm
  · have hd := allDigits_natDigits m.toNat
    have hv := digitsVal_natDigits m.toNat
    simp only [jsNumber, List.isEmpty_cons, Bool.false_eq_true, if_false]
    have hall : allDigits ('0' :: natDigits m.toNat) = true := by
      simp only [allDigits, List.all_cons, Bool.and_eq_true]
      exact ⟨by decide, hd⟩
    rw [if_pos hall, digitsVal_zero_cons, hv]
    simp
    omega
  · have := jsNumber_natDigits m.toNat
    rw [this]
    simp
    omega

theorem noDash_pad2 {m : Int} : noDash (pad2 m) = true := by
  unfold pad2
  have hd := noDash_of_allDigits (allDigits_natDigits m.toNat)
  split_ifs
  · simp only [noDash, List.all_cons, Bool.and_eq_true]
    exact ⟨by decide, hd⟩
  · exact hd

theorem jsNumber_pad4 {y : Int} (h0 : 0 ≤ y) :
    jsNumber (pad4 y) = some y := by
  have hd := allDigits_natDigits y.toNat
  have hv := digitsVal_natDigits y.toNat
  have hcast : ((y.toNat : Int)) = y := by omega
  have hz : isDigitCh '0' = true := by decide
  unfold pad4
  split_ifs with h1 h2 h3
  · have hall : allDigits ('0' :: '0' :: '0' :: natDigits y.toNat) = true := by
      simp only [allDigits, List.all_cons, Bool.and_eq_true]
      refine ⟨hz, hz, hz, ?_⟩
      simpa [allDigits] using hd
    unfold jsNumber
    rw [if_neg (by simp), if_pos hall]
    rw [digitsVal_zero_cons, digitsVal_zero_cons, digitsVal_zero_cons, hv, hcast]
  · have hall : allDigits ('0' :: '0' :: natDigits y.toNat) = true := by
      simp only [allDigits, List.all_cons, Bool.and_eq_true]
      refine ⟨hz, hz, ?_⟩
      simpa [allDigits] using hd
    unfold jsNumber
    rw [if_neg (by simp), if_pos hall]
    rw [digitsVal_zero_cons, digitsVal_zero_cons, hv, hcast]
  · have hall : allDigits ('0' :: natDigits y.toNat) = true := by
      simp only [allDigits, List.all_cons, Bool.and_eq_true]
      refine ⟨hz, ?_⟩
      simpa [allDigits] using hd
    unfold jsNumber
    rw [if_neg (by simp), if_pos hall]
    rw [digitsVal_zero_cons, hv, hcast]
  · rw [jsNumber_natDigits, hcast]

theorem noDash_pad4 {y : Int} : noDash (pad4 y) = true := by
  unfold pad4
  have hd := noDash_of_allDigits (allDigits_natDigits y.toNat)
  have hz : ('0' != '-') = true := by decide
  split_ifs <;> simp only [noDash, List.all_cons, Bool.and_eq_true] at * <;>
    simp_all [noDash]

theorem fmtYear_nonneg {y : Int} (h : 0 ≤ y) : fmtYear y = natDigits y.toNat := by
  unfold fmtYear
  rw [if_neg (by omega)]

theorem jsNumber_fmtYear {y : Int} (h : 0 ≤ y) : jsNumber (fmtYear y) = some y := by
  rw [fmtYear_nonneg h, jsNumber_natDigits]
  simp
  omega

theorem pad4_eq_fmtYear {y : Int} (h1 : 1000 ≤ y) : pad4 y = fmtYear y := by
  unfold pad4
  rw [if_neg (by omega), if_neg (by omega), if_neg (by omega), fmtYear_nonneg (by omega)]

/-- Decomposition of a formatted key by the dash splitter. -/
theorem splitOnDash_fmtKey (c : Civil) (h : 0 ≤ c.y) :
    splitOnDash (fmtKey c) = [fmtYear c.y, pad2 c.m, pad2 c.d] := by
  unfold fmtKey
  rw [splitOnDash_append (by rw [fmtYear_nonneg h]; exact noDash_of_allDigits (allDigits_natDigits _))]
  rw [splitOnDash_append noDash_pad2]
  rw [splitOnDash_noDash noDash_pad2]

theorem splitOnDash_fmtKey4 (c : Civil) :
    splitOnDash (fmtKey4 c) = [pad4 c.y, pad2 c.m, pad2 c.d] := by
  unfold fmtKey4
  rw [splitOnDash_append noDash_pad4]
  rw [splitOnDash_append noDash_pad2]
  rw [splitOnDash_noDash noDash_pad2]

theorem civil_bounds {c : Civil} (hv : c.valid) :
    1 ≤ c.m ∧ c.m ≤ 12 ∧ 1 ≤ c.d ∧ c.d ≤ 31 := by
  have h31 := daysInMonth_le c.y c.m
  obtain ⟨y, m, d⟩ := c
  simp only [Civil.valid] at hv
  simp only at *
  omega

theorem parseKeyParts_fmtKey {c : Civil} (hv : c.valid) (h : 0 ≤ c.y) :
    parseKeyParts (fmtKey c) = some (c.y, c.m, c.d) := by
  obtain ⟨hb1, hb2, hb3, hb4⟩ := civil_bounds hv
  have e1 := jsNumber_fmtYear h
  have e2 := jsNumber_pad2 (show (0:Int) ≤ c.m by omega) (show c.m ≤ 99 by omega)
  have e3 := jsNumber_pad2 (show (0:Int) ≤ c.d by omega) (show c.d ≤ 99 by omega)
  unfold parseKeyParts
  rw [splitOnDash_fmtKey _ h]
  simp only [e1, e2, e3]

theorem parseKeyParts_fmtKey4 {c : Civil} (hv : c.valid) (h : 0 ≤ c.y) :
    parseKeyParts (fmtKey4 c) = some (c.y, c.m, c.d) := by
  obtain ⟨hb1, hb2, hb3, hb4⟩ := civil_bounds hv
  have e1 := jsNumber_pad4 h
  have e2 := jsNumber_pad2 (show (0:Int) ≤ c.m by omega) (show c.m ≤ 99 by omega)
  have e3 := jsNumber_pad2 (show (0:Int) ≤ c.d by omega) (show c.d ≤ 99 by omega)
  unfold parseKeyParts
  rw [splitOnDash_fmtKey4]
  simp only [e1, e2, e3]

/-- The ECMAScript year interpretation shared by the Date constructor and
Date.UTC: an integer year between 0 and 99 stands for 1900 + year. -/
def jsYearShift (y : Int) : Int := if 0 ≤ y ∧ y ≤ 99 then y + 1900 else y

/-- ECMAScript MakeDay normalization of (year, zero-based month, day-of-month)
fields to a calendar date: an out-of-range month rolls the year, and the day
field shifts from the first day of the resolved month. -/
def jsMakeDate (y m1 d : Int) : Civil :=
  addDaysCivil ⟨y + m1 / 12, m1 % 12 + 1, 1⟩ (d - 1)

theorem jsMakeDate_valid (y m1 d : Int) : (jsMakeDate y m1 d).valid := by
  unfold jsMakeDate
  apply addDaysCivil_valid
  simp only [Civil.valid]
  have hp := daysInMonth_pos (y + m1 / 12) (m1 % 12 + 1)
  omega

theorem jsMakeDate_in_range {c : Civil} (hv : c.valid) :
    jsMakeDate c.y (c.m - 1) c.d = c := by
  obtain ⟨y, m, d⟩ := c
  show jsMakeDate y (m - 1) d = ⟨y, m, d⟩
  have hv2 := hv
  simp only [Civil.valid] at hv2
  obtain ⟨h1, h2, h3, h4⟩ := hv2
  unfold jsMakeDate
  have hq : (m - 1) / 12 = 0 := by omega
  have hr : (m - 1) % 12 = m - 1 := by omega
  rw [hq, hr]
  have he : (Civil.mk (y + 0) (m - 1 + 1) 1) = ⟨y, m, 1⟩ := by
    simp only [Civil.mk.injEq, true_and, and_true]
    omega
  rw [he]
  exact addDaysCivil_within_month hv

/-- Models addDays from src/utils/ramadan-utils.ts: split the date-key at
dashes, convert the first three parts with Number, build a Date from the
parts (applying the ECMAScript year shift and MakeDay normalization), shift
it by the requested number of days, and format the result with an unpadded
year and two-digit month and day. The empty-string result stands for the
invalid-date formatting JS produces when a part is missing or NaN; no input
verified below reaches that branch. -/
def addDaysKey (cs : JStr) (n : Int) : JStr :=
  match parseKeyParts cs with
  | none => []
  | some (yv, mv, dv) =>
      fmtKey (addDaysCivil (jsMakeDate (jsYearShift yv) (mv - 1) dv) n)

/-- On canonical keys of dates with year at least 100, addDays acts as the
pure calendar shift followed by formatting. -/
theorem addDaysKey_fmtKey4 {c : Civil} (hv : c.valid) (hy : 100 ≤ c.y) (n : Int) :
    addDaysKey (fmtKey4 c) n = fmtKey (addDaysCivil c n) := by
  unfold addDaysKey
  rw [parseKeyParts_fmtKey4 hv (by omega)]
  have hs : jsYearShift c.y = c.y := by
    unfold jsYearShift
    rw [if_neg (by omega)]
  simp only [hs, jsMakeDate_in_range hv]

/-- The same, for the unpadded formatting (which agrees with the canonical
one from year 1000 on, and is what addDays itself emits). -/
theorem addDaysKey_fmtKey {c : Civil} (hv : c.valid) (hy : 100 ≤ c.y) (n : Int) :
    addDaysKey (fmtKey c) n = fmtKey (addDaysCivil c n) := by
  unfold addDaysKey
  rw [parseKeyParts_fmtKey hv (by omega)]
  have hs : jsYearShift c.y = c.y := by
    unfold jsYearShift
    rw [if_neg (by omega)]
  simp only [hs, jsMakeDate_in_range hv]

theorem fmtKey4_eq_fmtKey {c : Civil} (h1 : 1000 ≤ c.y) : fmtKey4 c = fmtKey c := by
  unfold fmtKey4 fmtKey
  rw [pad4_eq_fmtYear h1]


/-! ## Lexicographic order on canonical keys

JS compares strings by code units; on canonical zero-padded date keys this
coincides with chronological order. -/

theorem char_lt_iff_toNat (a b : Char) : a < b ↔ a.toNat < b.toNat := Iff.rfl

theorem char_eq_iff_toNat (a b : Char) : a = b ↔ a.toNat = b.toNat :=
  ⟨fun h => by rw [h], fun h => Char.eq_of_val_eq (UInt32.ext h)⟩

theorem digit_lt_iff {a b : Char} (ha : isDigitCh a = true) (hb : isDigitCh b = true) :
    a < b ↔ digitVal a < digitVal b := by
  rw [char_lt_iff_toNat]
  simp only [isDigitCh, Bool.and_eq_true, decide_eq_true_eq] at ha hb
  simp only [digitVal]
  omega

theorem digit_eq_iff {a b : Char} (ha : isDigitCh a = true) (hb : isDigitCh b = true) :
    a = b ↔ digitVal a = digitVal b := by
  rw [char_eq_iff_toNat]
  simp only [isDigitCh, Bool.and_eq_true, decide_eq_true_eq] at ha hb
  simp only [digitVal]
  omega

theorem base_block_lt {A B v1 v2 N : Nat} (h1 : v1 < N) (h2 : v2 < N) :
    A * N + v1 < B * N + v2 ↔ A < B ∨ (A = B ∧ v1 < v2) := by
  constructor
  · intro h
    rcases lt_trichotomy A B with hab | hab | hab
    · exact Or.inl hab
    · exact Or.inr ⟨hab, by subst hab; omega⟩
    · exfalso
      have hBA : B + 1 ≤ A := hab
      have hc : (B + 1) * N ≤ A * N := Nat.mul_le_mul_right N hBA
      have hd : (B + 1) * N = B * N + N := by ring
      omega
  · rintro (hab | ⟨rfl, hv⟩)
    · have hc : (A + 1) * N ≤ B * N := Nat.mul_le_mul_right N hab
      have hd : (A + 1) * N = A * N + N := by ring
      omega
    · omega

theorem base_block_eq {A B v1 v2 N : Nat} (h1 : v1 < N) (h2 : v2 < N) :
    A * N + v1 = B * N + v2 ↔ A = B ∧ v1 = v2 := by
  constructor
  · intro h
    rcases lt_trichotomy A B with hab | hab | hab
    · exfalso
      have hc : (A + 1) * N ≤ B * N := Nat.mul_le_mul_right N hab
      have hd : (A + 1) * N = A * N + N := by ring
      omega
    · exact ⟨hab, by subst hab; omega⟩
    · exfalso
      have hc : (B + 1) * N ≤ A * N := Nat.mul_le_mul_right N hab
      have hd : (B + 1) * N = B * N + N := by ring
      omega
  · rintro ⟨rfl, rfl⟩
    rfl

theorem strLt_digits {xs ys : List Char} (hx : allDigits xs = true)
    (hy : allDigits ys = true) (hlen : xs.length = ys.length) :
    (strLt xs ys = true) ↔ digitsVal xs < digitsVal ys := by
  induction xs generalizing ys with
  | nil =>
    cases ys with
    | nil => simp [strLt, digitsVal]
    | cons b bs => simp at hlen
  | cons a as ih =>
    cases ys with
    | nil => simp at hlen
    | cons b bs =>
      simp only [allDigits, List.all_cons, Bool.and_eq_true] at hx hy
      obtain ⟨hxa, hxs⟩ := hx
      obtain ⟨hya, hys⟩ := hy
      have hlen2 : as.length = bs.length := by
        simp only [List.length_cons] at hlen
        omega
      have hva := digitsVal_lt as (by simpa [allDigits] using hxs)
      have hvb := digitsVal_lt bs (by simpa [allDigits] using hys)
      rw [digitsVal_cons, digitsVal_cons, ← hlen2]
      rw [← hlen2] at hvb
      rw [base_block_lt hva hvb]
      simp only [strLt, Bool.or_eq_true, Bool.and_eq_true, beq_iff_eq,
        decide_eq_true_eq]
      rw [digit_lt_iff hxa hya, digit_eq_iff hxa hya]
      rw [ih (by simpa [allDigits] using hxs) (by simpa [allDigits] using hys) hlen2]

theorem digits_val_inj {xs ys : List Char} (hx : allDigits xs = true)
    (hy : allDigits ys = true) (hlen : xs.length = ys.length)
    (h : digitsVal xs = digitsVal ys) : xs = ys := by
  induction xs generalizing ys with
  | nil =>
    cases ys with
    | nil => rfl
    | cons b bs => simp at hlen
  | cons a as ih =>
    cases ys with
    | nil => simp at hlen
    | cons b bs =>
      simp only [allDigits, List.all_cons, Bool.and_eq_true] at hx hy
      obtain ⟨hxa, hxs⟩ := hx
      obtain ⟨hya, hys⟩ := hy
      have hlen2 : as.length = bs.length := by
        simp only [List.length_cons] at hlen
        omega
      have hva := digitsVal_lt as (by simpa [allDigits] using hxs)
      have hvb := digitsVal_lt bs (by simpa [allDigits] using hys)
      rw [digitsVal_cons, digitsVal_cons, ← hlen2] at h
      rw [← hlen2] at hvb
      rw [base_block_eq hva hvb] at h
      obtain ⟨h1, h2⟩ := h
      have hab : a = b := (digit_eq_iff hxa hya).mpr h1
      have hrest : as = bs :=
        ih (by simpa [allDigits] using hxs) (by simpa [allDigits] using hys) hlen2 h2
      rw [hab, hrest]

theorem strLt_append_block {p q u v : List Char} (hlen : p.length = q.length) :
    (strLt (p ++ u) (q ++ v) = true) ↔
      (strLt p q = true ∨ (p = q ∧ strLt u v = true)) := by
  induction p generalizing q with
  | nil =>
    cases q with
    | nil => simp [strLt]
    | cons b bs => simp at hlen
  | cons a as ih =>
    cases q with
    | nil => simp at hlen
    | cons b bs =>
      have hlen2 : as.length = bs.length := by
        simp only [List.length_cons] at hlen
        omega
      simp only [List.cons_append, strLt, Bool.or_eq_true, Bool.and_eq_true,
        beq_iff_eq, decide_eq_true_eq, List.cons.injEq, List.append_eq]
      rw [ih hlen2]
      tauto


theorem natDigits_len1 {n : Nat} (h : n < 10) : (natDigits n).length = 1 := by
  rw [natDigits_step, if_pos h]
  rfl

theorem natDigits_len2 {n : Nat} (h1 : 10 ≤ n) (h2 : n < 100) :
    (natDigits n).length = 2 := by
  rw [natDigits_step, if_neg (by omega)]
  rw [List.length_append, natDigits_len1 (by omega)]
  rfl

theorem natDigits_len3 {n : Nat} (h1 : 100 ≤ n) (h2 : n < 1000) :
    (natDigits n).length = 3 := by
  rw [natDigits_step, if_neg (by omega)]
  rw [List.length_append, natDigits_len2 (by omega) (by omega)]
  rfl

theorem natDigits_len4 {n : Nat} (h1 : 1000 ≤ n) (h2 : n < 10000) :
    (natDigits n).length = 4 := by
  rw [natDigits_step, if_neg (by omega)]
  rw [List.length_append, natDigits_len3 (by omega) (by omega)]
  rfl

theorem pad4_allDigits (y : Int) : allDigits (pad4 y) = true := by
  have hd := allDigits_natDigits y.toNat
  have hz : isDigitCh '0' = true := by decide
  unfold pad4
  split_ifs
  · simpa [allDigits, hz] using hd
  · simpa [allDigits, hz] using hd
  · simpa [allDigits, hz] using hd
  · exact hd

theorem pad4_length {y : Int} (h0 : 0 ≤ y) (h : y ≤ 9999) : (pad4 y).length = 4 := by
  unfold pad4
  split_ifs with h1 h2 h3
  · simp [natDigits_len1 (show y.toNat < 10 by omega)]
  · simp [natDigits_len2 (show 10 ≤ y.toNat by omega) (show y.toNat < 100 by omega)]
  · simp [natDigits_len3 (show 100 ≤ y.toNat by omega) (show y.toNat < 1000 by omega)]
  · simp [natDigits_len4 (show 1000 ≤ y.toNat by omega) (show y.toNat < 10000 by omega)]

theorem digitsVal_pad4 {y : Int} (h0 : 0 ≤ y) : digitsVal (pad4 y) = y.toNat := by
  unfold pad4
  split_ifs <;>
    simp only [digitsVal_zero_cons, digitsVal_natDigits]

theorem pad2_allDigits (m : Int) : allDigits (pad2 m) = true := by
  have hd := allDigits_natDigits m.toNat
  have hz : isDigitCh '0' = true := by decide
  unfold pad2
  split_ifs
  · simpa [allDigits, hz] using hd
  · exact hd

theorem pad2_length {m : Int} (h0 : 0 ≤ m) (h : m ≤ 99) : (pad2 m).length = 2 := by
  unfold pad2
  split_ifs with h1
  · simp [natDigits_len1 (show m.toNat < 10 by omega)]
  · exact natDigits_len2 (by omega) (by omega)

theorem digitsVal_pad2 {m : Int} (h0 : 0 ≤ m) : digitsVal (pad2 m) = m.toNat := by
  unfold pad2
  split_ifs <;> simp only [digitsVal_zero_cons, digitsVal_natDigits]

theorem pad4_inj {y y2 : Int} (h0 : 0 ≤ y) (h9 : y ≤ 9999) (g0 : 0 ≤ y2) (g9 : y2 ≤ 9999) :
    pad4 y = pad4 y2 ↔ y = y2 := by
  constructor
  · intro h
    have := congrArg digitsVal h
    rw [digitsVal_pad4 h0, digitsVal_pad4 g0] at this
    omega
  · intro h
    rw [h]

theorem pad2_inj {m m2 : Int} (h0 : 0 ≤ m) (h9 : m ≤ 99) (g0 : 0 ≤ m2) (g9 : m2 ≤ 99) :
    pad2 m = pad2 m2 ↔ m = m2 := by
  constructor
  · intro h
    have := congrArg digitsVal h
    rw [digitsVal_pad2 h0, digitsVal_pad2 g0] at this
    omega
  · intro h
    rw [h]

theorem civLt_def (a b : Civil) :
    civLt a b ↔ (a.y < b.y ∨ (a.y = b.y ∧ (a.m < b.m ∨ (a.m = b.m ∧ a.d < b.d)))) := by
  obtain ⟨y, m, d⟩ := a
  obtain ⟨y2, m2, d2⟩ := b
  exact Iff.rfl

/-- On canonical keys with four-digit years, JS string comparison agrees with
chronological order. -/
theorem strLt_fmtKey4_iff {a b : Civil} (hav : a.valid) (hbv : b.valid)
    (ha : 0 ≤ a.y) (ha2 : a.y ≤ 9999) (hb : 0 ≤ b.y) (hb2 : b.y ≤ 9999) :
    (strLt (fmtKey4 a) (fmtKey4 b) = true) ↔ civLt a b := by
  obtain ⟨ham1, ham2, had1, had2⟩ := civil_bounds hav
  obtain ⟨hbm1, hbm2, hbd1, hbd2⟩ := civil_bounds hbv
  have hdash : ∀ u v : List Char, (strLt ('-' :: u) ('-' :: v) = true) ↔ (strLt u v = true) := by
    intro u v
    simp [strLt]
  unfold fmtKey4
  rw [strLt_append_block (by rw [pad4_length ha ha2, pad4_length hb hb2])]
  rw [hdash]
  rw [strLt_append_block
    (by rw [pad2_length (by omega) (by omega), pad2_length (by omega) (by omega)])]
  rw [hdash]
  rw [strLt_digits (pad4_allDigits _) (pad4_allDigits _)
    (by rw [pad4_length ha ha2, pad4_length hb hb2])]
  rw [strLt_digits (pad2_allDigits _) (pad2_allDigits _)
    (by rw [pad2_length (by omega) (by omega), pad2_length (by omega) (by omega)])]
  rw [strLt_digits (pad2_allDigits _) (pad2_allDigits _)
    (by rw [pad2_length (by omega) (by omega), pad2_length (by omega) (by omega)])]
  rw [digitsVal_pad4 ha, digitsVal_pad4 hb, digitsVal_pad2 (by omega : (0:Int) ≤ a.m),
    digitsVal_pad2 (by omega : (0:Int) ≤ b.m), digitsVal_pad2 (by omega : (0:Int) ≤ a.d),
    digitsVal_pad2 (by omega : (0:Int) ≤ b.d)]
  rw [pad4_inj ha ha2 hb hb2, pad2_inj (by omega) (by omega) (by omega) (by omega),
    civLt_def]
  constructor <;> intro h <;> omega

theorem fmtKey4_inj {a b : Civil} (hav : a.valid) (hbv : b.valid)
    (ha : 0 ≤ a.y) (ha2 : a.y ≤ 9999) (hb : 0 ≤ b.y) (hb2 : b.y ≤ 9999)
    (h : fmtKey4 a = fmtKey4 b) : a = b := by
  rcases civLt_trichotomy a b with hc | hc | hc
  · have h1 := (strLt_fmtKey4_iff hav hbv ha ha2 hb hb2).mpr hc
    rw [h, strLt_irrefl] at h1
    exact absurd h1 (by simp)
  · exact hc
  · have h1 := (strLt_fmtKey4_iff hbv hav hb hb2 ha ha2).mpr hc
    rw [h, strLt_irrefl] at h1
    exact absurd h1 (by simp)

theorem strLe_fmtKey4_iff {a b : Civil} (hav : a.valid) (hbv : b.valid)
    (ha : 0 ≤ a.y) (ha2 : a.y ≤ 9999) (hb : 0 ≤ b.y) (hb2 : b.y ≤ 9999) :
    (strLe (fmtKey4 a) (fmtKey4 b) = true) ↔ civLe a b := by
  unfold strLe civLe
  simp only [Bool.or_eq_true, beq_iff_eq]
  rw [strLt_fmtKey4_iff hav hbv ha ha2 hb hb2]
  constructor
  · rintro (h | h)
    · exact Or.inl h
    · exact Or.inr (fmtKey4_inj hav hbv ha ha2 hb hb2 h)
  · rintro (h | rfl)
    · exact Or.inl h
    · exact Or.inr rfl


/-! ## Time strings and the prayer data model -/

/-- Models extractTime of time-utils.ts: the first space-delimited token of
the string (value.split at spaces, first component). -/
def extractTime (cs : JStr) : JStr := cs.takeWhile (fun c => c != ' ')

/-- Models parseTimeToMinutes of time-utils.ts: match one or two digits, a
colon and two digits at the start of the first token (trailing characters
are ignored, as the regex has no end anchor) and return hours times sixty
plus minutes; null (none) when the pattern is absent. The isNaN re-check of
the source never fires, because the matched groups are digit strings. -/
def timeMatchMinutes : JStr → Option Int
  | a :: b :: rest =>
    if isDigitCh a then
      if isDigitCh b then
        match rest with
        | ':' :: c :: d :: _ =>
          if isDigitCh c && isDigitCh d then
            some (((10 * digitVal a + digitVal b) * 60 + (10 * digitVal c + digitVal d) : Nat))
          else none
        | _ => none
      else if b = ':' then
        match rest with
        | c :: d :: _ =>
          if isDigitCh c && isDigitCh d then
            some ((digitVal a * 60 + (10 * digitVal c + digitVal d) : Nat))
          else none
        | _ => none
      else none
    else none
  | _ => none

/-- Models parseTimeToMinutes of time-utils.ts: the regex match applied to
the first token. -/
def parseTimeToMinutes (cs : JStr) : Option Int := timeMatchMinutes (extractTime cs)

/-- The five daily prayers, in the declaration order of the PRAYERS constant
of src/lib/store.ts. -/
inductive Prayer
  | Fajr
  | Dhuhr
  | Asr
  | Maghrib
  | Isha
deriving DecidableEq

/-- The fixed prayer order: PRAYERS of store.ts, also PRAYER_ORDER of the
schedule command. -/
def PRAYERS : List Prayer := [.Fajr, .Dhuhr, .Asr, .Maghrib, .Isha]

/-- A per-day prayer completion record: five optional booleans, mirroring
PrayerRecordSchema of store.ts. -/
structure PrayerRecord where
  Fajr : Option Bool
  Dhuhr : Option Bool
  Asr : Option Bool
  Maghrib : Option Bool
  Isha : Option Bool
deriving DecidableEq

/-- Truthiness of the indexing row.prayers[prayer]: an absent entry and an
explicit false are both falsy. -/
def PrayerRecord.flag (r : PrayerRecord) : Prayer → Bool
  | .Fajr => r.Fajr.getD false
  | .Dhuhr => r.Dhuhr.getD false
  | .Asr => r.Asr.getD false
  | .Maghrib => r.Maghrib.getD false
  | .Isha => r.Isha.getD false

/-- The empty prayers map. -/
def emptyPrayers : PrayerRecord := ⟨none, none, none, none, none⟩

/-- A stored attendance row: DayAttendanceSchema of store.ts together with
the optional fasting flag the recap command reads. -/
structure DayAttendance where
  date : JStr
  prayers : PrayerRecord
  fasted : Option Bool
  updatedAt : JStr
deriving DecidableEq

/-- One day's timing table: the five prayer fields computePrayerStatus reads
(the full API table also carries Imsak and Sunrise, which it ignores). -/
structure PrayerTimings where
  Fajr : JStr
  Dhuhr : JStr
  Asr : JStr
  Maghrib : JStr
  Isha : JStr
deriving DecidableEq

def PrayerTimings.get (t : PrayerTimings) : Prayer → JStr
  | .Fajr => t.Fajr
  | .Dhuhr => t.Dhuhr
  | .Asr => t.Asr
  | .Maghrib => t.Maghrib
  | .Isha => t.Isha

/-- The output record of computePrayerStatus. -/
structure PrayerStatus where
  current : Option Prayer
  next : Option Prayer
  nextTime : Option JStr
  minutesAway : Option Int
deriving DecidableEq

/-- The next-prayer scan of computePrayerStatus: walk the fixed order,
skip unparseable times, and break at the first prayer whose minute value
strictly exceeds now. -/
def findNextAux (minutes : Prayer → Option Int) (now : Int) :
    List Prayer → Option (Prayer × Int)
  | [] => none
  | p :: rest =>
    match minutes p with
    | none => findNextAux minutes now rest
    | some m => if now < m then some (p, m) else findNextAux minutes now rest

/-- The current-prayer scan of computePrayerStatus: walk the fixed order and
overwrite the accumulator whenever now is at least the parsed minute value. -/
def findCurrentAux (minutes : Prayer → Option Int) (now : Int) :
    List Prayer → Option Prayer → Option Prayer
  | [], acc => acc
  | p :: rest, acc =>
    match minutes p with
    | none => findCurrentAux minutes now rest acc
    | some m =>
      if m ≤ now then findCurrentAux minutes now rest (some p)
      else findCurrentAux minutes now rest acc

/-- Models computePrayerStatus of src/commands/schedule.ts. -/
def computePrayerStatus (t : PrayerTimings) (nowMinutes : Int) : PrayerStatus :=
  let minutes : Prayer → Option Int := fun p => parseTimeToMinutes (t.get p)
  let nextPair : Option (Prayer × Int) :=
    match findNextAux minutes nowMinutes PRAYERS with
    | some pm => some pm
    | none =>
      match minutes .Fajr with
      | some f => some (.Fajr, f + 24 * 60)
      | none => none
  { current := findCurrentAux minutes nowMinutes PRAYERS none
    next := nextPair.map (fun pm => pm.1)
    nextTime := nextPair.map (fun pm => extractTime (t.get pm.1))
    minutesAway := nextPair.map (fun pm => pm.2 - nowMinutes) }

/-- Spec reading: the prayers of the table whose times parse, in the fixed
order, with their minute values. -/
def parsedPrayers (t : PrayerTimings) : List (Prayer × Int) :=
  PRAYERS.filterMap (fun p => (parseTimeToMinutes (t.get p)).map (fun m => (p, m)))

/-- Spec reading: the first prayer in the fixed order whose minute value
strictly exceeds now, with that value. -/
def specNextPair (t : PrayerTimings) (now : Int) : Option (Prayer × Int) :=
  (parsedPrayers t).find? (fun pm => now < pm.2)

/-- Spec reading: the last prayer in the fixed order whose minute value is at
most now. -/
def specCurrent (t : PrayerTimings) (now : Int) : Option Prayer :=
  ((parsedPrayers t).reverse.find? (fun pm => pm.2 ≤ now)).map (fun pm => pm.1)

theorem findNextAux_eq_find (minutes : Prayer → Option Int) (now : Int) (l : List Prayer) :
    findNextAux minutes now l =
      (l.filterMap (fun p => (minutes p).map (fun m => (p, m)))).find?
        (fun pm => now < pm.2) := by
  induction l with
  | nil => rfl
  | cons p rest ih =>
    cases hm : minutes p with
    | none =>
      simp only [findNextAux, hm, List.filterMap_cons]
      exact ih
    | some m =>
      simp only [findNextAux, hm, List.filterMap_cons, Option.map_some']
      by_cases hlt : now < m
      · rw [if_pos hlt, List.find?_cons_of_pos _ (by simpa using hlt)]
      · rw [if_neg hlt, List.find?_cons_of_neg _ (by simpa using hlt)]
        exact ih

theorem findCurrentAux_eq_find (minutes : Prayer → Option Int) (now : Int)
    (l : List Prayer) (acc : Option Prayer) :
    findCurrentAux minutes now l acc =
      match (l.filterMap (fun p => (minutes p).map (fun m => (p, m)))).reverse.find?
          (fun pm => pm.2 ≤ now) with
      | some pm => some pm.1
      | none => acc := by
  induction l generalizing acc with
  | nil => rfl
  | cons p rest ih =>
    cases hm : minutes p with
    | none =>
      simp only [findCurrentAux, hm, List.filterMap_cons]
      exact ih acc
    | some m =>
      simp only [findCurrentAux, hm, List.filterMap_cons, Option.map_some',
        List.reverse_cons, List.find?_append]
      by_cases hle : m ≤ now
      · rw [if_pos hle, ih (some p)]
        have hsingle : List.find? (fun pm => decide (pm.2 ≤ now)) [(p, m)] = some (p, m) :=
          List.find?_cons_of_pos _ (by simpa using hle)
        rw [hsingle]
        cases hfind : List.find? (fun pm => decide (pm.2 ≤ now))
            ((rest.filterMap (fun p => (minutes p).map (fun m => (p, m)))).reverse) with
        | none => rfl
        | some pm => rfl
      · rw [if_neg hle, ih acc]
        have hsingle : List.find? (fun pm => decide (pm.2 ≤ now)) [(p, m)] = none := by
          rw [List.find?_cons_of_neg _ (by simpa using hle)]
          rfl
        rw [hsingle]
        cases hfind : List.find? (fun pm => decide (pm.2 ≤ now))
            ((rest.filterMap (fun p => (minutes p).map (fun m => (p, m)))).reverse) with
        | none => rfl
        | some pm => rfl


/-! ## Attendance aggregation -/

/-- JS Math.round: the floor of x plus one half (ties round toward positive
infinity), on the exact rationals modeling the JS number arithmetic of the
aggregator. -/
def jsRound (q : Rat) : Int := ⌊q + 1 / 2⌋

/-- JS Number(x.toFixed(2)): x rounded to two decimal places, ties toward
the larger value. -/
def toFixed2 (q : Rat) : Rat := (jsRound (q * 100) : Rat) / 100

/-- The per-row completed-prayer count: the inner PRAYERS.reduce of
calcSummary. -/
def countRow (r : PrayerRecord) : Nat :=
  PRAYERS.foldl (fun a p => a + (if r.flag p then 1 else 0)) 0

/-- The output record of calcSummary (src/lib/recap.ts). -/
structure RecapSummary where
  totalDays : Nat
  completed : Nat
  total : Nat
  percent : Int
  activeDays : Nat
  perfectDays : Nat
  averagePerDay : Rat
deriving DecidableEq

/-- Models calcSummary of src/lib/recap.ts. -/
def calcSummary (rows : List DayAttendance) : RecapSummary :=
  let totalDays := rows.length
  let total := totalDays * PRAYERS.length
  let completed := rows.foldl (fun s r => s + countRow r.prayers) 0
  let percent : Int :=
    if 0 < total then jsRound ((completed : Rat) / (total : Rat) * 100) else 0
  let activeDays := rows.foldl
    (fun s r => s + (if 0 < countRow r.prayers then 1 else 0)) 0
  let perfectDays := rows.foldl
    (fun s r => s + (if countRow r.prayers = PRAYERS.length then 1 else 0)) 0
  let averagePerDay : Rat :=
    if 0 < totalDays then toFixed2 ((completed : Rat) / (totalDays : Rat)) else 0
  ⟨totalDays, completed, total, percent, activeDays, perfectDays, averagePerDay⟩

/-- Models filterRowsUntil of the recap command: the rows whose date key is
at most the cutoff key in JS string comparison. -/
def filterRowsUntil (rows : List DayAttendance) (cutoffDateKey : JStr) :
    List DayAttendance :=
  rows.filter (fun row => strLe row.date cutoffDateKey)

/-- The perfect-day test of calcPrayerRate: every prayer flag truthy. -/
def isPerfectRow (row : DayAttendance) : Bool :=
  PRAYERS.all (fun p => row.prayers.flag p)

/-- The output record of the two win-rate calculators. -/
structure RateResult where
  percent : Int
  completed : Nat
  total : Nat
deriving DecidableEq

/-- Models calcPrayerRate of the recap command. -/
def calcPrayerRate (rows : List DayAttendance) (cutoffDateKey : JStr) : RateResult :=
  let scopedRows := filterRowsUntil rows cutoffDateKey
  let completed : Nat := scopedRows.foldl
    (fun sum row => sum + (if isPerfectRow row then 1 else 0)) 0
  let total := scopedRows.length
  let percent : Int :=
    if 0 < total then jsRound ((completed : Rat) / (total : Rat) * 100) else 0
  ⟨percent, completed, total⟩

/-- Models calcFastingRate of the recap command; row.fasted is truthy exactly
when it is the explicit true. -/
def calcFastingRate (rows : List DayAttendance) (cutoffDateKey : JStr) : RateResult :=
  let scopedRows := filterRowsUntil rows cutoffDateKey
  let completed : Nat := scopedRows.foldl
    (fun sum row => sum + (if row.fasted.getD false then 1 else 0)) 0
  let total := scopedRows.length
  let percent : Int :=
    if 0 < total then jsRound ((completed : Rat) / (total : Rat) * 100) else 0
  ⟨percent, completed, total⟩

/-- The awaited result of resolveTodayTimings: a timing table and the API
timezone. -/
structure FetchedTimings where
  timings : PrayerTimings
  timezone : JStr
deriving DecidableEq

/-- Models resolveWinRateCutoffDateKey of the recap command. Following the
specification's injection note, the ambient inputs are explicit parameters:
todayKey is the getTodayDateKey result, hasLocation tells whether a location
is configured, fetched is the awaited resolveTodayTimings result (none models
a failed fetch), and nowMinutes is the getNowMinutes value in the resolved
timezone. -/
def resolveWinRateCutoffDateKey (todayKey : JStr) (hasLocation : Bool)
    (fetched : Option FetchedTimings) (nowMinutes : Int) : JStr :=
  let yesterdayKey := addDaysKey todayKey (-1)
  if !hasLocation then yesterdayKey
  else
    match fetched with
    | none => yesterdayKey
    | some timing =>
      match parseTimeToMinutes timing.timings.Isha with
      | none => yesterdayKey
      | some ishaMinutes =>
        if nowMinutes ≥ ishaMinutes then todayKey else yesterdayKey

/-- Models buildRamadanDatesFromStart of the recap command: the date keys
addDays(start, idx) for idx from 0 to days minus 1, in index order. The
history command's variant additionally resolves one Hijri display label per
date through a batch of conversion calls whose results are gathered by index
before use, so its date-key sequence is the same list. -/
def buildRamadanDatesFromStart (start : JStr) (days : Nat) : List JStr :=
  (List.range days).map (fun (idx : Nat) => addDaysKey start (idx : Int))

/-! ## Input validation -/

/-- The strict YYYY-MM-DD shape regex of parseDateKey. -/
def isDateShape (cs : JStr) : Bool :=
  match cs with
  | [y1, y2, y3, y4, s1, m1, m2, s2, d1, d2] =>
    isDigitCh y1 && isDigitCh y2 && isDigitCh y3 && isDigitCh y4 &&
    s1 = '-' && isDigitCh m1 && isDigitCh m2 && s2 = '-' &&
    isDigitCh d1 && isDigitCh d2
  | _ => false

/-- Models parseDateKey of src/utils/ramadan-utils.ts: the shape test only.
Throwing is modeled with Except. -/
def parseDateKey (value : JStr) : Except JStr JStr :=
  if isDateShape value then Except.ok value
  else Except.error ("Date must be in YYYY-MM-DD format".data)

/-- Models parseDays of ramadan-utils.ts: const n = Number(value) followed by
the Number.isInteger and 1..30 range checks. The composite of the Number
builtin and the integrality test is the parameter num (num value = some n
when Number(value) is the integer n, none when it is NaN or fractional):
the validator receives raw command-line strings, for which the full
ECMAScript numeric grammar (hex, exponent, signed, whitespace and fractional
forms) applies, and its branching is uniform in that conversion. jsNumber is
the conversion's restriction to the decimal-digit fragment. -/
def parseDays (num : JStr → Option Int) (value : JStr) : Except JStr Int :=
  match num value with
  | some days =>
    if 1 ≤ days ∧ days ≤ 30 then Except.ok days
    else Except.error ("Ramadan days must be an integer between 1 and 30".data)
  | none => Except.error ("Ramadan days must be an integer between 1 and 30".data)

/-- Models parseHijriYear of ramadan-utils.ts: Number conversion (abstracted
as in parseDays), integrality, and the positivity check. -/
def parseHijriYear (num : JStr → Option Int) (value : JStr) : Except JStr Int :=
  match num value with
  | some year =>
    if 1 ≤ year then Except.ok year
    else Except.error ("Hijri year must be a positive integer".data)
  | none => Except.error ("Hijri year must be a positive integer".data)

/-- Models parseDateKey of the backfill command: the shape test, the month
range test, and the Date.UTC round-trip that rejects day values no real day
of the month carries (getUTCMonth is zero-based in the source, so its check
against month minus 1 is the same as comparing the one-based fields). -/
def parseDateKeyStrict (value : JStr) : Except JStr JStr :=
  if !isDateShape value then Except.error ("Date must be in YYYY-MM-DD format".data)
  else
    match parseKeyParts value with
    | none => Except.error ("Date must be in YYYY-MM-DD format".data)
    | some (y, m, d) =>
      if m < 1 ∨ 12 < m then Except.error ("Month must be between 01 and 12".data)
      else
        if (jsMakeDate (jsYearShift y) (m - 1) d).y ≠ y ∨
            (jsMakeDate (jsYearShift y) (m - 1) d).m ≠ m ∨
            (jsMakeDate (jsYearShift y) (m - 1) d).d ≠ d then
          Except.error ("Invalid day for the given month".data)
        else Except.ok value

/-! ## Attendance expansion -/

/-- The comparator of the recap command sort: dates compared by
localeCompare, which on canonical date keys agrees with code-unit order. -/
def rowLe (a b : DayAttendance) : Prop := strLe a.date b.date = true

instance : DecidableRel rowLe := fun a b =>
  inferInstanceAs (Decidable (strLe a.date b.date = true))

instance : IsTotal DayAttendance rowLe :=
  ⟨fun a b => by
    have h := strLe_total a.date b.date
    simp only [Bool.or_eq_true] at h
    exact h⟩

instance : IsTrans DayAttendance rowLe :=
  ⟨fun _ _ _ h1 h2 => strLe_trans h1 h2⟩

/-- The ascending sort of the recap command: [...rows].sort with the date
comparator. JS Array.prototype.sort with a consistent comparator produces
the stable ascending reordering, modeled by insertion sort. -/
def sortRows (rows : List DayAttendance) : List DayAttendance :=
  rows.insertionSort rowLe

/-- Lookup in the Map the recap command builds from the sorted rows, keyed by
date. The store keeps dates unique, so which duplicate would win is moot. -/
def lookupRow (rows : List DayAttendance) (k : JStr) : Option DayAttendance :=
  rows.find? (fun row => row.date == k)

/-- The while loop of expandAttendance: emit one row per day from the cursor
to the end key, stepping with addDays(cursor, 1) and synthesizing an empty
placeholder row for missing days. The fuel argument only bounds the
recursion so the definition is total; expandFuel below supplies the exact
iteration count of the source's unbounded loop for well-formed keys, so on
those inputs this is the source's loop (see the expansion theorems). -/
def expandLoop (m : List DayAttendance) (endKey : JStr) :
    Nat → JStr → List DayAttendance
  | 0, _ => []
  | fuel + 1, cursor =>
    if strLe cursor endKey then
      ((lookupRow m cursor).getD ⟨cursor, emptyPrayers, none, []⟩) ::
        expandLoop m endKey fuel (addDaysKey cursor 1)
    else []

/-- The day span between the parsed start and end keys, the iteration count
of the expansion loop on well-formed keys. -/
def expandFuel (startKey endKey : JStr) : Nat :=
  match parseKeyParts startKey, parseKeyParts endKey with
  | some (y1, m1, d1), some (y2, m2, d2) =>
    (toDayNumber ⟨y2, m2, d2⟩ - toDayNumber ⟨y1, m1, d1⟩).toNat + 1
  | _, _ => 1

/-- Models expandAttendance of the recap command: sort, take the first and
last date as the span, and run the expansion loop over it. -/
def expandAttendance (rows : List DayAttendance) : List DayAttendance :=
  if rows.isEmpty then rows
  else
    expandLoop (sortRows rows)
      (((sortRows rows).getLast?.map (fun r => r.date)).getD [])
      (expandFuel (((sortRows rows).head?.map (fun r => r.date)).getD [])
        (((sortRows rows).getLast?.map (fun r => r.date)).getD []))
      (((sortRows rows).head?.map (fun r => r.date)).getD [])


/-! ## Claim theorems -/

/-- Spec reading of the leading HH:MM pattern: one or two digits, a colon and
two digits at the start of the token, with h and m the values of the two
groups. -/
def leadingHHMM (t : JStr) (h m : Nat) : Prop :=
  (∃ a b c d r, t = a :: b :: ':' :: c :: d :: r ∧
    isDigitCh a = true ∧ isDigitCh b = true ∧ isDigitCh c = true ∧ isDigitCh d = true ∧
    h = 10 * digitVal a + digitVal b ∧ m = 10 * digitVal c + digitVal d) ∨
  (∃ a c d r, t = a :: ':' :: c :: d :: r ∧
    isDigitCh a = true ∧ isDigitCh c = true ∧ isDigitCh d = true ∧
    h = digitVal a ∧ m = 10 * digitVal c + digitVal d)

theorem colon_not_digit : isDigitCh ':' = false := by decide

theorem digit_ne_space {ch : Char} (h : isDigitCh ch = true) : (ch != ' ') = true := by
  simp only [isDigitCh, Bool.and_eq_true, decide_eq_true_eq] at h
  simp only [bne_iff_ne]
  intro he
  subst he
  have h32 : (' ').toNat = 32 := rfl
  omega

theorem timeMatch_complete (t : JStr) (hh mm : Nat) (hp : leadingHHMM t hh mm) :
    timeMatchMinutes t = some ((60 * hh + mm : Nat) : Int) := by
  rcases hp with ⟨a, b, c, d, r, rfl, ha, hb, hc, hd, rfl, rfl⟩ |
    ⟨a, c, d, r, rfl, ha, hc, hd, rfl, rfl⟩
  · simp only [timeMatchMinutes]
    rw [if_pos ha, if_pos hb]
    show (if (isDigitCh c && isDigitCh d) = true then
      some (((10 * digitVal a + digitVal b) * 60 +
        (10 * digitVal c + digitVal d) : Nat) : Int) else none) = _
    rw [if_pos (by simp [hc, hd])]
    congr 1
    push_cast
    ring
  · simp only [timeMatchMinutes]
    rw [if_pos ha, if_neg (by simp [colon_not_digit]), if_pos trivial]
    show (if (isDigitCh c && isDigitCh d) = true then
      some ((digitVal a * 60 + (10 * digitVal c + digitVal d) : Nat) : Int) else none) = _
    rw [if_pos (by simp [hc, hd])]
    congr 1
    push_cast
    ring

theorem timeMatch_sound (t : JStr) (v : Int) (h : timeMatchMinutes t = some v) :
    ∃ hh mm : Nat, leadingHHMM t hh mm ∧ v = ((60 * hh + mm : Nat) : Int) := by
  rcases t with _ | ⟨a, _ | ⟨b, rest⟩⟩
  · simp [timeMatchMinutes] at h
  · simp [timeMatchMinutes] at h
  · simp only [timeMatchMinutes] at h
    split_ifs at h with ha hb hcolon
    · split at h
      · rename_i c d tail
        split_ifs at h with hcd
        simp only [Bool.and_eq_true] at hcd
        refine ⟨10 * digitVal a + digitVal b, 10 * digitVal c + digitVal d,
          Or.inl ⟨a, b, c, d, tail, rfl, ha, hb, hcd.1, hcd.2, rfl, rfl⟩, ?_⟩
        have hv := (Option.some.injEq _ _).mp h
        rw [← hv]
        congr 1
        ring
      · exact absurd h (by simp)
    · subst hcolon
      split at h
      · rename_i c d tail
        split_ifs at h with hcd
        simp only [Bool.and_eq_true] at hcd
        refine ⟨digitVal a, 10 * digitVal c + digitVal d,
          Or.inr ⟨a, c, d, tail, rfl, ha, hcd.1, hcd.2, rfl, rfl⟩, ?_⟩
        have hv := (Option.some.injEq _ _).mp h
        rw [← hv]
        congr 1
        ring
      · exact absurd h (by simp)

/-- C9: for every input string, parseTimeToMinutes extracts the leading HH:MM
pattern from the first whitespace-delimited token (ignoring trailing
annotations such as parenthesized timezone abbreviations) and returns
hour times sixty plus minute, and returns none rather than failing when the
pattern is absent; in particular "05:12 (WIB)" parses to 312 and "garbage"
parses to none. -/
theorem parseTimeToMinutes_spec :
    (∀ (cs : JStr) (hh mm : Nat), leadingHHMM (extractTime cs) hh mm →
        parseTimeToMinutes cs = some ((60 * hh + mm : Nat) : Int)) ∧
    (∀ cs : JStr, (∀ hh mm : Nat, ¬leadingHHMM (extractTime cs) hh mm) →
        parseTimeToMinutes cs = none) ∧
    parseTimeToMinutes ("05:12 (WIB)".data) = some 312 ∧
    parseTimeToMinutes ("garbage".data) = none := by
  refine ⟨?_, ?_, by decide, by decide⟩
  · intro cs hh mm hp
    exact timeMatch_complete _ _ _ hp
  · intro cs hnone
    cases hv : parseTimeToMinutes cs with
    | none => rfl
    | some v =>
      obtain ⟨hh, mm, hp, _⟩ := timeMatch_sound _ v hv
      exact absurd hp (hnone hh mm)

/-- Witness for C9: the first component applied at the concrete example. -/
theorem parseTimeToMinutes_spec_witness :
    parseTimeToMinutes ("05:12 (WIB)".data) = some ((60 * 5 + 12 : Nat) : Int) :=
  parseTimeToMinutes_spec.1 ("05:12 (WIB)".data) 5 12
    (Or.inl ⟨'0', '5', '1', '2', [], by decide, by decide, by decide, by decide,
      by decide, by decide, by decide⟩)

/-- C10: parseTimeToMinutes performs no range validation on the matched
digits: any token starting with one or two digits, a colon and two digits
yields hour times sixty plus minute even when the hour is at least 24 or the
minute at least 60; in particular "27:99" parses to 1719 and "5:99" to 399
rather than none. -/
theorem parseTimeToMinutes_no_range_check :
    (∀ (a b c d : Char) (r : List Char), isDigitCh a = true → isDigitCh b = true →
      isDigitCh c = true → isDigitCh d = true →
      parseTimeToMinutes (a :: b :: ':' :: c :: d :: r) =
        some (((10 * digitVal a + digitVal b) * 60 +
          (10 * digitVal c + digitVal d) : Nat) : Int)) ∧
    (∀ (a c d : Char) (r : List Char), isDigitCh a = true →
      isDigitCh c = true → isDigitCh d = true →
      parseTimeToMinutes (a :: ':' :: c :: d :: r) =
        some ((digitVal a * 60 + (10 * digitVal c + digitVal d) : Nat) : Int)) ∧
    parseTimeToMinutes ("27:99".data) = some 1719 ∧
    parseTimeToMinutes ("5:99".data) = some 399 := by
  refine ⟨?_, ?_, by decide, by decide⟩
  · intro a b c d r ha hb hc hd
    unfold parseTimeToMinutes
    have hext : extractTime (a :: b :: ':' :: c :: d :: r) =
        a :: b :: ':' :: c :: d :: (r.takeWhile (fun ch => ch != ' ')) := by
      simp [extractTime, List.takeWhile_cons, digit_ne_space ha, digit_ne_space hb,
        digit_ne_space hc, digit_ne_space hd]
    rw [hext]
    simp only [timeMatchMinutes]
    rw [if_pos ha, if_pos hb]
    show (if (isDigitCh c && isDigitCh d) = true then
      some (((10 * digitVal a + digitVal b) * 60 +
        (10 * digitVal c + digitVal d) : Nat) : Int) else none) = _
    rw [if_pos (by simp [hc, hd])]
  · intro a c d r ha hc hd
    unfold parseTimeToMinutes
    have hext : extractTime (a :: ':' :: c :: d :: r) =
        a :: ':' :: c :: d :: (r.takeWhile (fun ch => ch != ' ')) := by
      simp [extractTime, List.takeWhile_cons, digit_ne_space ha,
        digit_ne_space hc, digit_ne_space hd]
    rw [hext]
    simp only [timeMatchMinutes]
    rw [if_pos ha, if_neg (by decide : ¬isDigitCh ':' = true), if_pos trivial,
      if_pos (by simp [hc, hd] : (isDigitCh c && isDigitCh d) = true)]

/-- Witness for C10: the two general components applied to the digits of the
concrete examples. -/
theorem parseTimeToMinutes_no_range_check_witness :
    parseTimeToMinutes ("27:99".data) =
      some (((10 * digitVal '2' + digitVal '7') * 60 +
        (10 * digitVal '9' + digitVal '9') : Nat) : Int) ∧
    parseTimeToMinutes ("5:99".data) =
      some ((digitVal '5' * 60 + (10 * digitVal '9' + digitVal '9') : Nat) : Int) :=
  ⟨parseTimeToMinutes_no_range_check.1 '2' '7' '9' '9' []
    (by decide) (by decide) (by decide) (by decide),
   parseTimeToMinutes_no_range_check.2.1 '5' '9' '9' []
    (by decide) (by decide) (by decide)⟩


/-- C8 counterexample: the round trip fails as stated, at the shape-valid
date-key 0099-01-01 with n = 0, because the ECMAScript date construction
interprets year 99 as 1999 and the formatting drops the zero padding of the
year. -/
theorem addDays_roundtrip_cex :
    addDaysKey (addDaysKey ("0099-01-01".data) 0) (-(0 : Int)) = ("1999-01-01".data) ∧
    ("1999-01-01".data : JStr) ≠ ("0099-01-01".data : JStr) := by
  constructor
  · decide
  · decide

/-- C8 (amended): addDays performs calendar-correct day arithmetic across
month and year boundaries for positive and negative n, and the round trip
addDays(addDays(d, n), -n) = d holds for every canonical date-key d with a
four-digit year of at least 1000, whenever the shifted date's year is still
at least 100 (below 100 the ECMAScript year interpretation of the
re-parse shifts the year by 1900, and a year of d below 1000 is re-formatted
without its zero padding). -/
theorem addDays_roundtrip (c : Civil) (n : Int) (hv : c.valid)
    (hy1 : 1000 ≤ c.y) (hy2 : c.y ≤ 9999)
    (hmid : 100 ≤ (addDaysCivil c n).y) :
    addDaysKey (addDaysKey (fmtKey4 c) n) (-n) = fmtKey4 c := by
  rw [addDaysKey_fmtKey4 hv (by omega) n]
  rw [addDaysKey_fmtKey (addDaysCivil_valid hv n) hmid (-n)]
  rw [addDaysCivil_neg_cancel hv n]
  exact (fmtKey4_eq_fmtKey hy1).symm

/-- Witness for C8: the round trip at 2026-02-19 with n = 29. -/
theorem addDays_roundtrip_witness :
    addDaysKey (addDaysKey (fmtKey4 ⟨2026, 2, 19⟩) 29) (-29) = fmtKey4 ⟨2026, 2, 19⟩ :=
  addDays_roundtrip ⟨2026, 2, 19⟩ 29 (by decide) (by decide) (by decide) (by decide)


theorem addDaysCivil_neg_one (c : Civil) : addDaysCivil c (-1) = civPred c := by
  unfold addDaysCivil
  rw [if_neg (by omega)]
  norm_num

theorem addDaysKey_neg_one_ne {c : Civil} (hv : c.valid) (hy : 100 ≤ c.y) :
    addDaysKey (fmtKey4 c) (-1) ≠ fmtKey4 c := by
  intro he
  rw [addDaysKey_fmtKey4 hv hy (-1), addDaysCivil_neg_one] at he
  have hpv := civPred_valid hv
  have hpy : 0 ≤ (civPred c).y := by
    have hcase : (civPred c).y = c.y ∨ (civPred c).y = c.y - 1 := by
      obtain ⟨y, m, d⟩ := c
      simp only [civPred]
      split_ifs <;> simp
    rcases hcase with h | h <;> omega
  have h1 := parseKeyParts_fmtKey hpv hpy
  rw [he] at h1
  have h2 := parseKeyParts_fmtKey4 hv (by omega)
  have h4 := h1.symm.trans h2
  simp only [Option.some.injEq, Prod.mk.injEq] at h4
  obtain ⟨e1, e2, e3⟩ := h4
  have h5 : toDayNumber (civPred c) = toDayNumber c := by
    unfold toDayNumber
    rw [e1, e2, e3]
  have h6 := toDayNumber_civPred hv
  omega

/-- C1: resolveWinRateCutoffDateKey returns the today key exactly when a
location is configured, the timings fetch succeeded, the fetched Isha time
parses, and now is at least the parsed Isha minutes; in every other case (no
location, failed fetch, unparseable Isha, or now before Isha) it returns the
yesterday key, today minus one day. For a canonical today key the two
outcomes differ, so the characterization is exact. -/
theorem resolveWinRateCutoff_spec (todayKey : JStr) (hasLocation : Bool)
    (fetched : Option FetchedTimings) (nowMinutes : Int) :
    ((hasLocation = true ∧ ∃ t, fetched = some t ∧
        ∃ isha, parseTimeToMinutes t.timings.Isha = some isha ∧ isha ≤ nowMinutes) →
      resolveWinRateCutoffDateKey todayKey hasLocation fetched nowMinutes = todayKey) ∧
    (¬(hasLocation = true ∧ ∃ t, fetched = some t ∧
        ∃ isha, parseTimeToMinutes t.timings.Isha = some isha ∧ isha ≤ nowMinutes) →
      resolveWinRateCutoffDateKey todayKey hasLocation fetched nowMinutes =
        addDaysKey todayKey (-1)) ∧
    (∀ c : Civil, c.valid → 100 ≤ c.y → todayKey = fmtKey4 c →
      addDaysKey todayKey (-1) ≠ todayKey) := by
  refine ⟨?_, ?_, ?_⟩
  · rintro ⟨hloc, t, rfl, isha, hisha, hle⟩
    subst hloc
    simp only [resolveWinRateCutoffDateKey, Bool.not_true]
    rw [if_neg (by simp)]
    rw [hisha]
    show (if nowMinutes ≥ isha then todayKey else addDaysKey todayKey (-1)) = todayKey
    rw [if_pos (by omega)]
  · intro hn
    simp only [resolveWinRateCutoffDateKey]
    cases hasLocation with
    | false => rw [if_pos (by simp)]
    | true =>
      rw [if_neg (by simp)]
      cases fetched with
      | none => rfl
      | some t =>
        cases hisha : parseTimeToMinutes t.timings.Isha with
        | none => simp [hisha]
        | some isha =>
          by_cases hge : nowMinutes ≥ isha
          · exact absurd ⟨rfl, t, rfl, isha, hisha, by omega⟩ hn
          · simp [hisha, hge]
  · intro c hv hy htoday
    subst htoday
    exact addDaysKey_neg_one_ne hv hy

/-- Witness for C1: a concrete configuration with a fetched table whose Isha
parses to 1155 and now past it yields the today key. -/
theorem resolveWinRateCutoff_spec_witness :
    resolveWinRateCutoffDateKey ("2026-02-20".data) true
      (some ⟨⟨"05:12".data, "12:05".data, "15:20".data, "18:10".data, "19:15".data⟩,
        "Asia/Jakarta".data⟩) 1200 = ("2026-02-20".data) :=
  (resolveWinRateCutoff_spec ("2026-02-20".data) true
      (some ⟨⟨"05:12".data, "12:05".data, "15:20".data, "18:10".data, "19:15".data⟩,
        "Asia/Jakarta".data⟩) 1200).1
    ⟨rfl, _, rfl, (19 * 60 + 15 : Nat), by decide, by norm_num⟩


theorem foldl_count {α : Type} (p : α → Bool) (l : List α) (a : Nat) :
    l.foldl (fun s x => s + (if p x then 1 else 0)) a = a + l.countP p := by
  induction l generalizing a with
  | nil => simp
  | cons x xs ih =>
    simp only [List.foldl_cons, ih, List.countP_cons]
    by_cases h : p x <;> simp [h] <;> omega

theorem foldl_count_prop {α : Type} (p : α → Prop) [DecidablePred p] (l : List α) (a : Nat) :
    l.foldl (fun s x => s + (if p x then 1 else 0)) a = a + l.countP (fun x => decide (p x)) := by
  induction l generalizing a with
  | nil => simp
  | cons x xs ih =>
    simp only [List.foldl_cons, ih, List.countP_cons]
    by_cases h : p x <;> simp [h] <;> omega

theorem foldl_sum {α : Type} (f : α → Nat) (l : List α) (a : Nat) :
    l.foldl (fun s x => s + f x) a = a + (l.map f).sum := by
  induction l generalizing a with
  | nil => simp
  | cons x xs ih =>
    simp only [List.foldl_cons, ih, List.map_cons, List.sum_cons]
    omega

theorem countRow_eq (r : PrayerRecord) : countRow r = PRAYERS.countP (fun p => r.flag p) := by
  simp only [countRow, PRAYERS, List.foldl_cons, List.foldl_nil, List.countP_cons,
    List.countP_nil]
  split_ifs <;> omega

theorem jsRound_nonneg {q : Rat} (h : 0 ≤ q) : 0 ≤ jsRound q := by
  unfold jsRound
  rw [Int.le_floor]
  push_cast
  linarith

theorem jsRound_le_of_le {q : Rat} {B : Int} (h : q ≤ B) : jsRound q ≤ B := by
  unfold jsRound
  have h1 : ⌊q + 1 / 2⌋ ≤ ⌊(B : Rat) + 1 / 2⌋ := Int.floor_le_floor (by linarith)
  have h2 : ⌊(B : Rat) + 1 / 2⌋ = B := by
    rw [show ((B : Rat) + 1 / 2) = 1 / 2 + (B : Rat) by ring, Int.floor_add_int]
    norm_num
  omega

/-- C3: for every list of attendance rows (the empty list included),
calcSummary returns total as five per day, completed as the number of true
prayer flags over all rows, percent as the rounded completion ratio (zero on
the empty list) always between 0 and 100, activeDays as the number of rows
with at least one completed prayer, perfectDays as the number of rows with
all five completed, and averagePerDay as completed over totalDays rounded to
two decimal places (zero with no rows). -/
theorem calcSummary_spec (rows : List DayAttendance) :
    (calcSummary rows).totalDays = rows.length ∧
    (calcSummary rows).total = rows.length * 5 ∧
    (calcSummary rows).completed =
      (rows.map (fun r => PRAYERS.countP (fun p => r.prayers.flag p))).sum ∧
    (calcSummary rows).percent =
      (if 0 < (calcSummary rows).total then
        jsRound (((calcSummary rows).completed : Rat) / ((calcSummary rows).total : Rat) * 100)
      else 0) ∧
    0 ≤ (calcSummary rows).percent ∧ (calcSummary rows).percent ≤ 100 ∧
    (calcSummary rows).activeDays =
      rows.countP (fun r => PRAYERS.any (fun p => r.prayers.flag p)) ∧
    (calcSummary rows).perfectDays =
      rows.countP (fun r => PRAYERS.all (fun p => r.prayers.flag p)) ∧
    (calcSummary rows).averagePerDay =
      (if 0 < rows.length then
        toFixed2 (((calcSummary rows).completed : Rat) / (rows.length : Rat))
      else 0) := by
  have hcompleted : (calcSummary rows).completed =
      (rows.map (fun r => PRAYERS.countP (fun p => r.prayers.flag p))).sum := by
    show rows.foldl (fun s r => s + countRow r.prayers) 0 = _
    rw [foldl_sum (fun r => countRow r.prayers) rows 0]
    simp only [Nat.zero_add]
    congr 1
    exact List.map_congr_left (fun r _ => countRow_eq r.prayers)
  have hbound : (calcSummary rows).completed ≤ rows.length * 5 := by
    rw [hcompleted]
    have h1 : ∀ x ∈ rows.map (fun r => PRAYERS.countP (fun p => r.prayers.flag p)),
        x ≤ 5 := by
      intro x hx
      obtain ⟨r, _, rfl⟩ := List.mem_map.mp hx
      calc PRAYERS.countP (fun p => r.prayers.flag p) ≤ PRAYERS.length :=
            List.countP_le_length _
        _ = 5 := rfl
    have h2 := List.sum_le_card_nsmul _ 5 h1
    simpa using h2
  have htot : (calcSummary rows).total = rows.length * 5 := rfl
  have hpercent : (calcSummary rows).percent =
      (if 0 < (calcSummary rows).total then
        jsRound (((calcSummary rows).completed : Rat) / ((calcSummary rows).total : Rat) * 100)
      else 0) := rfl
  refine ⟨rfl, rfl, hcompleted, hpercent, ?_, ?_, ?_, ?_, rfl⟩
  · rw [hpercent]
    split_ifs with h
    · apply jsRound_nonneg
      positivity
    · exact le_refl 0
  · rw [hpercent]
    split_ifs with h
    · apply jsRound_le_of_le
      rw [htot] at h ⊢
      have hc := hbound
      have hpos : (0 : Rat) < (rows.length * 5 : Nat) := by
        exact_mod_cast h
      rw [div_mul_eq_mul_div, div_le_iff₀ hpos]
      push_cast
      have : ((calcSummary rows).completed : Rat) ≤ ((rows.length * 5 : Nat) : Rat) := by
        exact_mod_cast hc
      push_cast at this
      nlinarith
    · norm_num
  · show rows.foldl (fun s r => s + (if 0 < countRow r.prayers then 1 else 0)) 0 = _
    rw [foldl_count_prop (fun r => 0 < countRow r.prayers) rows 0]
    simp only [Nat.zero_add]
    apply List.countP_congr
    intro r _
    simp only [decide_eq_true_eq, List.any_eq_true]
    rw [countRow_eq]
    rw [List.countP_pos_iff]
  · show rows.foldl (fun s r => s + (if countRow r.prayers = PRAYERS.length then 1 else 0)) 0 = _
    rw [foldl_count_prop (fun r => countRow r.prayers = PRAYERS.length) rows 0]
    simp only [Nat.zero_add]
    apply List.countP_congr
    intro r _
    simp only [decide_eq_true_eq, List.all_eq_true]
    rw [countRow_eq]
    rw [List.countP_eq_length]


/-- C5: the two win-rate calculators consider only rows with date at most
the cutoff: completed counts the perfect (respectively fasted) rows among
those, total is their count, percent the rounded ratio (zero when total is
zero), and appending any row dated after the cutoff leaves both results
unchanged. -/
theorem calcRates_spec (rows : List DayAttendance) (cutoff : JStr) :
    (calcPrayerRate rows cutoff).completed =
      (rows.filter (fun r => strLe r.date cutoff)).countP (fun r => isPerfectRow r) ∧
    (calcPrayerRate rows cutoff).total =
      (rows.filter (fun r => strLe r.date cutoff)).length ∧
    (calcPrayerRate rows cutoff).percent =
      (if 0 < (calcPrayerRate rows cutoff).total then
        jsRound (((calcPrayerRate rows cutoff).completed : Rat) /
          ((calcPrayerRate rows cutoff).total : Rat) * 100)
      else 0) ∧
    (calcFastingRate rows cutoff).completed =
      (rows.filter (fun r => strLe r.date cutoff)).countP (fun r => r.fasted.getD false) ∧
    (calcFastingRate rows cutoff).total =
      (rows.filter (fun r => strLe r.date cutoff)).length ∧
    (calcFastingRate rows cutoff).percent =
      (if 0 < (calcFastingRate rows cutoff).total then
        jsRound (((calcFastingRate rows cutoff).completed : Rat) /
          ((calcFastingRate rows cutoff).total : Rat) * 100)
      else 0) ∧
    (∀ r : DayAttendance, strLe r.date cutoff = false →
      calcPrayerRate (rows ++ [r]) cutoff = calcPrayerRate rows cutoff ∧
      calcFastingRate (rows ++ [r]) cutoff = calcFastingRate rows cutoff) := by
  have hp : (calcPrayerRate rows cutoff).completed =
      (rows.filter (fun r => strLe r.date cutoff)).countP (fun r => isPerfectRow r) := by
    show (filterRowsUntil rows cutoff).foldl
      (fun sum row => sum + (if isPerfectRow row then 1 else 0)) 0 = _
    rw [foldl_count]
    simp [filterRowsUntil]
  have hf : (calcFastingRate rows cutoff).completed =
      (rows.filter (fun r => strLe r.date cutoff)).countP (fun r => r.fasted.getD false) := by
    show (filterRowsUntil rows cutoff).foldl
      (fun sum row => sum + (if row.fasted.getD false then 1 else 0)) 0 = _
    rw [foldl_count]
    simp [filterRowsUntil]
  refine ⟨hp, rfl, rfl, hf, rfl, rfl, ?_⟩
  intro r hr
  have hfilter : (rows ++ [r]).filter (fun x => strLe x.date cutoff) =
      rows.filter (fun x => strLe x.date cutoff) := by
    rw [List.filter_append]
    simp [List.filter, hr]
  constructor
  · unfold calcPrayerRate filterRowsUntil
    rw [hfilter]
  · unfold calcFastingRate filterRowsUntil
    rw [hfilter]

/-- Witness for C5: the insensitivity component at a concrete row set from
the specification example (rows for 2026-02-19 to 21, cutoff 2026-02-20). -/
theorem calcRates_spec_witness :
    calcPrayerRate
        [⟨"2026-02-19".data, ⟨some true, some true, some true, some true, some true⟩,
          some true, "t1".data⟩,
         ⟨"2026-02-20".data, ⟨some true, none, none, none, none⟩, some false, "t2".data⟩,
         ⟨"2026-02-21".data, ⟨some true, some true, some true, some true, some true⟩,
          some true, "t3".data⟩]
        ("2026-02-20".data) =
      calcPrayerRate
        [⟨"2026-02-19".data, ⟨some true, some true, some true, some true, some true⟩,
          some true, "t1".data⟩,
         ⟨"2026-02-20".data, ⟨some true, none, none, none, none⟩, some false, "t2".data⟩]
        ("2026-02-20".data) := by
  have h := ((calcRates_spec
    [⟨"2026-02-19".data, ⟨some true, some true, some true, some true, some true⟩,
      some true, "t1".data⟩,
     ⟨"2026-02-20".data, ⟨some true, none, none, none, none⟩, some false, "t2".data⟩]
    ("2026-02-20".data)).2.2.2.2.2.2
    ⟨"2026-02-21".data, ⟨some true, some true, some true, some true, some true⟩,
      some true, "t3".data⟩ (by decide)).1
  exact h


theorem parseTime_nonneg {cs : JStr} {v : Int} (h : parseTimeToMinutes cs = some v) :
    0 ≤ v := by
  unfold parseTimeToMinutes at h
  obtain ⟨hh, mm, -, hv⟩ := timeMatch_sound _ _ h
  rw [hv]
  exact Int.ofNat_nonneg _

/-- Counterexample to C2 as stated: in a timing table where only Dhuhr
parses (to 720) and now is 800, no parseable prayer lies ahead, yet Fajr is
unparseable, so computePrayerStatus returns next = none and
minutesAway = none instead of wrapping to Fajr; the parsed-prayer list is
not empty, so this is not the vacuous no-data case. -/
theorem computePrayerStatus_wrap_cex :
    (computePrayerStatus
        ⟨"garbage".data, "12:00".data, "x".data, "y".data, "z".data⟩ 800).next = none ∧
    (computePrayerStatus
        ⟨"garbage".data, "12:00".data, "x".data, "y".data, "z".data⟩ 800).minutesAway = none ∧
    specNextPair ⟨"garbage".data, "12:00".data, "x".data, "y".data, "z".data⟩ 800 = none ∧
    parsedPrayers ⟨"garbage".data, "12:00".data, "x".data, "y".data, "z".data⟩ ≠ [] := by
  decide

/-- C2 (amended): among prayers with parseable times, next is the first in
the fixed order whose minutes strictly exceed now, with
minutesAway = next minus now, strictly positive; when no parsed prayer lies
ahead the scan wraps to Fajr plus 1440 only if Fajr itself parses
(minutesAway then positive whenever now is a real minutes-of-day below
1440), and otherwise next and minutesAway are none, not a wrapped Fajr;
current is always the last parsed prayer whose minutes are at most now. -/
theorem computePrayerStatus_spec (t : PrayerTimings) (now : Int) :
    (computePrayerStatus t now).current = specCurrent t now ∧
    (∀ p m, specNextPair t now = some (p, m) →
      (computePrayerStatus t now).next = some p ∧
      (computePrayerStatus t now).minutesAway = some (m - now) ∧
      0 < m - now) ∧
    (specNextPair t now = none →
      (∀ f, parseTimeToMinutes t.Fajr = some f →
        (computePrayerStatus t now).next = some Prayer.Fajr ∧
        (computePrayerStatus t now).minutesAway = some (f + 1440 - now) ∧
        (now < 1440 → 0 < f + 1440 - now)) ∧
      (parseTimeToMinutes t.Fajr = none →
        (computePrayerStatus t now).next = none ∧
        (computePrayerStatus t now).minutesAway = none)) := by
  have hnext : findNextAux (fun p => parseTimeToMinutes (t.get p)) now PRAYERS =
      specNextPair t now := by
    rw [findNextAux_eq_find]
    rfl
  have hN0 : (computePrayerStatus t now).next =
      ((match findNextAux (fun p => parseTimeToMinutes (t.get p)) now PRAYERS with
        | some pm => some pm
        | none =>
          match parseTimeToMinutes t.Fajr with
          | some f => some (Prayer.Fajr, f + 24 * 60)
          | none => none : Option (Prayer × Int))).map (fun pm => pm.1) := rfl
  have hM0 : (computePrayerStatus t now).minutesAway =
      ((match findNextAux (fun p => parseTimeToMinutes (t.get p)) now PRAYERS with
        | some pm => some pm
        | none =>
          match parseTimeToMinutes t.Fajr with
          | some f => some (Prayer.Fajr, f + 24 * 60)
          | none => none : Option (Prayer × Int))).map (fun pm => pm.2 - now) := rfl
  rw [hnext] at hN0 hM0
  refine ⟨?_, ?_, ?_⟩
  · show findCurrentAux (fun p => parseTimeToMinutes (t.get p)) now PRAYERS none =
      specCurrent t now
    rw [findCurrentAux_eq_find]
    unfold specCurrent parsedPrayers
    split
    · rename_i pm hf
      rw [hf, Option.map_some']
    · rename_i hf
      rw [hf, Option.map_none']
  · intro p m hpm
    have hpm2 := hpm
    unfold specNextPair at hpm2
    have hlt : now < m := by simpa using List.find?_some hpm2
    rw [hN0, hM0, hpm]
    exact ⟨rfl, rfl, by omega⟩
  · intro hnone
    rw [hN0, hM0, hnone]
    constructor
    · intro f hf
      have hfn : 0 ≤ f := parseTime_nonneg hf
      rw [hf]
      refine ⟨rfl, ?_, by omega⟩
      show some (f + 24 * 60 - now) = some (f + 1440 - now)
      norm_num
    · intro hf
      rw [hf]
      exact ⟨rfl, rfl⟩

/-- Witness for C2 at the specification's example table (Fajr 05:00,
Dhuhr 12:00, Asr 15:30, Maghrib 18:00, Isha 19:15) with now = 960. -/
theorem computePrayerStatus_spec_witness :
    (computePrayerStatus
        ⟨"05:00".data, "12:00".data, "15:30".data, "18:00".data, "19:15".data⟩ 960).next =
      some Prayer.Maghrib ∧
    (computePrayerStatus
        ⟨"05:00".data, "12:00".data, "15:30".data, "18:00".data, "19:15".data⟩
        960).minutesAway = some ((1080 : Int) - 960) ∧
    0 < (1080 : Int) - 960 ∧
    (computePrayerStatus
        ⟨"05:00".data, "12:00".data, "15:30".data, "18:00".data, "19:15".data⟩ 960).current =
      specCurrent
        ⟨"05:00".data, "12:00".data, "15:30".data, "18:00".data, "19:15".data⟩ 960 :=
  have h := computePrayerStatus_spec
    ⟨"05:00".data, "12:00".data, "15:30".data, "18:00".data, "19:15".data⟩ 960
  have hn := h.2.1 Prayer.Maghrib 1080 (by decide)
  ⟨hn.1, hn.2.1, hn.2.2, h.1⟩


theorem addDaysCivil_year_lb {c : Civil} (hv : c.valid) (i : Nat) :
    c.y ≤ (addDaysCivil c (i : Int)).y := by
  rcases Nat.eq_zero_or_pos i with h0 | hp
  · subst h0
    rw [show ((0 : Nat) : Int) = 0 from rfl, addDaysCivil_zero]
  · have hvi := addDaysCivil_valid hv (i : Int)
    have ht := toDayNumber_addDaysCivil hv (i : Int)
    have hlt : civLt c (addDaysCivil c (i : Int)) :=
      civLt_of_toDayNumber_lt hv hvi (by omega)
    have hd := (civLt_def _ _).mp hlt
    omega

/-- Counterexample to C6 as stated: "0099-02-19" is a well-formed date key
with a valid calendar date, yet the one-day sequence built from it starts at
"1999-02-19", not at the given start date, because the Date constructor
shifts two-digit years by 1900. -/
theorem buildRamadanDates_cex :
    buildRamadanDatesFromStart ("0099-02-19".data) 1 = ["1999-02-19".data] ∧
    "1999-02-19".data ≠ "0099-02-19".data := by
  decide

/-- C6 (amended): for a start date with a four-digit year at least 1000
whose whole span keeps the year at most 9999, the start-derived Ramadan
sequence is exactly the days-many consecutive calendar dates from the start,
in strictly ascending date order (the per-date Hijri display labels of the
history variant are gathered by index and do not affect this list), and it
begins at the start date. -/
theorem buildRamadanDates_spec (c : Civil) (days : Nat) (hv : c.valid)
    (hy1 : 1000 ≤ c.y)
    (hy2 : ∀ i : Nat, i < days → (addDaysCivil c (i : Int)).y ≤ 9999) :
    buildRamadanDatesFromStart (fmtKey4 c) days =
      (List.range days).map (fun (i : Nat) => fmtKey4 (addDaysCivil c (i : Int))) ∧
    List.Pairwise (fun a b => strLt a b = true)
      (buildRamadanDatesFromStart (fmtKey4 c) days) ∧
    (0 < days → (buildRamadanDatesFromStart (fmtKey4 c) days).head? = some (fmtKey4 c)) := by
  have hmap : buildRamadanDatesFromStart (fmtKey4 c) days =
      (List.range days).map (fun (i : Nat) => fmtKey4 (addDaysCivil c (i : Int))) := by
    unfold buildRamadanDatesFromStart
    apply List.map_congr_left
    intro i hi
    rw [List.mem_range] at hi
    have hyi : 1000 ≤ (addDaysCivil c (i : Int)).y := by
      have := addDaysCivil_year_lb hv i
      omega
    rw [addDaysKey_fmtKey4 hv (by omega), ← fmtKey4_eq_fmtKey hyi]
  refine ⟨hmap, ?_, ?_⟩
  · rw [hmap, List.pairwise_map]
    refine List.Pairwise.imp_of_mem ?_ (List.pairwise_lt_range days)
    intro i j hi hj hij
    rw [List.mem_range] at hi hj
    have hvi := addDaysCivil_valid hv (i : Int)
    have hvj := addDaysCivil_valid hv (j : Int)
    have hti := toDayNumber_addDaysCivil hv (i : Int)
    have htj := toDayNumber_addDaysCivil hv (j : Int)
    have hlbi := addDaysCivil_year_lb hv i
    have hlbj := addDaysCivil_year_lb hv j
    rw [strLt_fmtKey4_iff hvi hvj (by omega) (hy2 i hi) (by omega) (hy2 j hj)]
    exact civLt_of_toDayNumber_lt hvi hvj (by omega)
  · intro hd
    rw [hmap]
    cases days with
    | zero => omega
    | succ k =>
      rw [List.range_succ_eq_map]
      simp only [List.map_cons, List.head?_cons, Nat.cast_zero, addDaysCivil_zero]

/-- Witness for C6: the 30-day sequence starting "2026-02-19" is the 30
consecutive dates from that start and ends exactly at "2026-03-20". -/
theorem buildRamadanDates_spec_witness :
    buildRamadanDatesFromStart ("2026-02-19".data) 30 =
      (List.range 30).map
        (fun (i : Nat) => fmtKey4 (addDaysCivil ⟨2026, 2, 19⟩ (i : Int))) ∧
    (buildRamadanDatesFromStart ("2026-02-19".data) 30).head? =
      some ("2026-02-19".data) ∧
    (buildRamadanDatesFromStart ("2026-02-19".data) 30).getLast? =
      some ("2026-03-20".data) := by
  have hs : fmtKey4 (⟨2026, 2, 19⟩ : Civil) = "2026-02-19".data := by decide
  have h := buildRamadanDates_spec ⟨2026, 2, 19⟩ 30 (by decide) (by decide) (by decide)
  rw [hs] at h
  refine ⟨h.1, h.2.2 (by decide), ?_⟩
  rw [h.1]
  decide


theorem jsNumber_nonneg {cs : JStr} {v : Int} (h : jsNumber cs = some v) : 0 ≤ v := by
  unfold jsNumber at h
  split_ifs at h
  · obtain rfl : (0 : Int) = v := Option.some.inj h
    exact le_refl 0
  · obtain rfl : ((digitsVal cs : Nat) : Int) = v := Option.some.inj h
    exact Int.ofNat_nonneg _

theorem parseKeyParts_nonneg {v : JStr} {y m d : Int}
    (h : parseKeyParts v = some (y, m, d)) : 0 ≤ y ∧ 0 ≤ m ∧ 0 ≤ d := by
  unfold parseKeyParts at h
  split at h
  · split at h
    · rename_i yv mv dv hjy hjm hjd
      simp only [Option.some.injEq, Prod.mk.injEq] at h
      obtain ⟨rfl, rfl, rfl⟩ := h
      exact ⟨jsNumber_nonneg hjy, jsNumber_nonneg hjm, jsNumber_nonneg hjd⟩
    · exact absurd h (by simp)
  · exact absurd h (by simp)

theorem jsMakeDate_shift_ne {y m d : Int} (h0 : 0 ≤ y) (h99 : y ≤ 99)
    (hm1 : 1 ≤ m) (hm2 : m ≤ 12) :
    jsMakeDate (y + 1900) (m - 1) d ≠ Civil.mk y m d := by
  intro he
  have hv := jsMakeDate_valid (y + 1900) (m - 1) d
  rw [he] at hv
  have hd1 : 1 ≤ d := by
    simp only [Civil.valid] at hv
    omega
  have hbase : (Civil.mk (y + 1900) m 1).valid := by
    simp only [Civil.valid]
    have := daysInMonth_pos (y + 1900) m
    omega
  have hlt : civLt (Civil.mk y m d) (Civil.mk (y + 1900) m 1) :=
    (civLt_def _ _).mpr (Or.inl (show y < y + 1900 by omega))
  have hmono := toDayNumber_mono hv hbase hlt
  have ht : toDayNumber (jsMakeDate (y + 1900) (m - 1) d) =
      toDayNumber (Civil.mk (y + 1900) m 1) + (d - 1) := by
    unfold jsMakeDate
    have hq : (m - 1) / 12 = 0 := by omega
    have hr : (m - 1) % 12 = m - 1 := by omega
    rw [hq, hr]
    have he2 : Civil.mk (y + 1900 + 0) (m - 1 + 1) 1 = Civil.mk (y + 1900) m 1 := by
      simp only [Civil.mk.injEq]
      exact ⟨by omega, by omega, trivial⟩
    rw [he2, toDayNumber_addDaysCivil hbase]
  rw [he] at ht
  linarith

/-- Counterexample to C7 as stated: "2026-02-31" names no real calendar day
(February 2026 has 28 days), yet the Ramadan resolver date parser accepts it,
because that parser checks only the YYYY-MM-DD shape; the round-tripping
rejection the claim describes is performed by the backfill command parser,
which does reject this input. -/
theorem ramadan_parseDateKey_cex :
    parseDateKey ("2026-02-31".data) = Except.ok ("2026-02-31".data) ∧
    ¬(Civil.mk 2026 2 31).valid ∧
    parseDateKeyStrict ("2026-02-31".data) =
      Except.error ("Invalid day for the given month".data) := by
  refine ⟨by rfl, fun h => absurd h.2.2.2 (by decide), by rfl⟩

/-- C7 (amended): whatever integer the Number conversion extracts from the
raw string (covering hex, exponent, signed and whitespace numerals alike),
parseHijriYear accepts exactly the strings converting to an integer of at
least 1 and returns that integer, and parseDays exactly those converting to
an integer in 1..30; the Ramadan resolver parseDateKey accepts exactly the
strings of YYYY-MM-DD shape, with no reality check on the day; the backfill
parser additionally requires month between 1 and 12, a year of at least 100
(two-digit years are shifted by 1900 by the Date constructor, so they never
round-trip), and a day that a real day of the month carries. -/
theorem inputValidation_spec :
    (∀ (num : JStr → Option Int) (v : JStr) (y : Int),
      parseHijriYear num v = Except.ok y ↔ num v = some y ∧ 1 ≤ y) ∧
    (∀ (num : JStr → Option Int) (v : JStr) (n : Int),
      parseDays num v = Except.ok n ↔ num v = some n ∧ 1 ≤ n ∧ n ≤ 30) ∧
    (∀ v w, parseDateKey v = Except.ok w ↔ isDateShape v = true ∧ w = v) ∧
    (∀ v w, parseDateKeyStrict v = Except.ok w ↔
      w = v ∧ isDateShape v = true ∧ ∃ y m d : Int,
        parseKeyParts v = some (y, m, d) ∧
        1 ≤ m ∧ m ≤ 12 ∧ 100 ≤ y ∧ (Civil.mk y m d).valid) := by
  refine ⟨?_, ?_, ?_, ?_⟩
  · intro num v y
    unfold parseHijriYear
    split
    · rename_i z hj
      rw [hj]
      split_ifs with hz
      · simp only [Except.ok.injEq, Option.some.injEq]
        exact ⟨fun h => ⟨h, h ▸ hz⟩, fun h => h.1⟩
      · simp only [Option.some.injEq]
        constructor
        · intro h
          exact absurd h (by simp)
        · rintro ⟨rfl, h1⟩
          exact absurd h1 hz
    · rename_i hj
      rw [hj]
      simp
  · intro num v n
    unfold parseDays
    split
    · rename_i z hj
      rw [hj]
      split_ifs with hz
      · simp only [Except.ok.injEq, Option.some.injEq]
        exact ⟨fun h => ⟨h, h ▸ hz.1, h ▸ hz.2⟩, fun h => h.1⟩
      · simp only [Option.some.injEq]
        constructor
        · intro h
          exact absurd h (by simp)
        · rintro ⟨rfl, h1, h2⟩
          exact absurd ⟨h1, h2⟩ hz
    · rename_i hj
      rw [hj]
      simp
  · intro v w
    unfold parseDateKey
    split_ifs with hs
    · simp only [Except.ok.injEq, hs, true_and]
      exact eq_comm
    · simp only [Bool.not_eq_true] at hs
      simp [hs]
  · intro v w
    unfold parseDateKeyStrict
    by_cases hs : isDateShape v = true
    · rw [if_neg (by simp [hs])]
      split
      · rename_i hp
        rw [hp]
        simp only [hs, true_and]
        constructor
        · intro h
          exact absurd h (by simp)
        · rintro ⟨-, y, m, d, hp2, -⟩
          exact absurd hp2 (by simp)
      · rename_i y m d hp
        by_cases hm : m < 1 ∨ 12 < m
        · rw [if_pos hm]
          constructor
          · intro h
            exact absurd h (by simp)
          · rintro ⟨-, -, y2, m2, d2, hp2, hm1, hm2, -, -⟩
            rw [hp] at hp2
            simp only [Option.some.injEq, Prod.mk.injEq] at hp2
            obtain ⟨rfl, rfl, rfl⟩ := hp2
            omega
        · rw [if_neg hm]
          have hmm1 : 1 ≤ m := by omega
          have hmm2 : m ≤ 12 := by omega
          obtain ⟨hy0, hm0, hd0⟩ := parseKeyParts_nonneg hp
          by_cases hrt : (jsMakeDate (jsYearShift y) (m - 1) d).y ≠ y ∨
              (jsMakeDate (jsYearShift y) (m - 1) d).m ≠ m ∨
              (jsMakeDate (jsYearShift y) (m - 1) d).d ≠ d
          · rw [if_pos hrt]
            constructor
            · intro h
              exact absurd h (by simp)
            · rintro ⟨-, -, y2, m2, d2, hp2, hm1, hm2, hy100, hvv⟩
              rw [hp] at hp2
              simp only [Option.some.injEq, Prod.mk.injEq] at hp2
              obtain ⟨rfl, rfl, rfl⟩ := hp2
              have hshift : jsYearShift y = y := by
                unfold jsYearShift
                rw [if_neg (by omega)]
              have hJ : jsMakeDate (jsYearShift y) (m - 1) d = Civil.mk y m d := by
                rw [hshift]
                exact jsMakeDate_in_range hvv
              rw [hJ] at hrt
              rcases hrt with h | h | h <;> exact absurd rfl h
          · rw [if_neg hrt]
            push_neg at hrt
            obtain ⟨h1, h2, h3⟩ := hrt
            rcases hJ : jsMakeDate (jsYearShift y) (m - 1) d with ⟨a, b, c⟩
            rw [hJ] at h1 h2 h3
            have ha : a = y := h1
            have hb : b = m := h2
            have hc : c = d := h3
            subst ha hb hc
            have hvv : (Civil.mk a b c).valid := by
              rw [← hJ]
              exact jsMakeDate_valid _ _ _
            have hy100 : 100 ≤ a := by
              by_contra hy99
              have hshift : jsYearShift a = a + 1900 := by
                unfold jsYearShift
                rw [if_pos ⟨hy0, by omega⟩]
              rw [hshift] at hJ
              exact jsMakeDate_shift_ne hy0 (by omega) hmm1 hmm2 hJ
            simp only [Except.ok.injEq]
            constructor
            · intro h
              exact ⟨h.symm, hs, a, b, c, hp, hmm1, hmm2, hy100, hvv⟩
            · rintro ⟨rfl, -⟩
              rfl
    · rw [if_pos (by simp [hs])]
      constructor
      · intro h
        exact absurd h (by simp)
      · rintro ⟨-, hs2, -⟩
        exact absurd hs2 hs

/-- Witness for C7: the validators at concrete inputs, including a
malformed-but-shaped date the Ramadan resolver parser accepts. -/
theorem inputValidation_spec_witness :
    parseHijriYear jsNumber ("1447".data) = Except.ok 1447 ∧
    parseDays jsNumber ("30".data) = Except.ok 30 ∧
    parseDateKey ("2026-02-30".data) = Except.ok ("2026-02-30".data) ∧
    parseDateKeyStrict ("2026-02-19".data) = Except.ok ("2026-02-19".data) :=
  ⟨(inputValidation_spec.1 jsNumber _ _).mpr ⟨by decide, by decide⟩,
   (inputValidation_spec.2.1 jsNumber _ _).mpr ⟨by decide, by decide, by decide⟩,
   (inputValidation_spec.2.2.1 _ _).mpr ⟨by decide, rfl⟩,
   (inputValidation_spec.2.2.2 _ _).mpr
     ⟨rfl, by decide, 2026, 2, 19, by decide, by decide, by decide, by decide,
      ⟨by decide, by decide, by decide, by decide⟩⟩⟩


theorem civLe_year {a b : Civil} (h : civLe a b) : a.y ≤ b.y := by
  rcases h with h | rfl
  · have h2 := (civLt_def _ _).mp h
    omega
  · exact le_refl _

theorem civLe_of_toDayNumber_le {a b : Civil} (ha : a.valid) (hb : b.valid)
    (h : toDayNumber a ≤ toDayNumber b) : civLe a b := by
  rcases lt_or_eq_of_le h with h2 | h2
  · exact Or.inl (civLt_of_toDayNumber_lt ha hb h2)
  · exact Or.inr (toDayNumber_inj ha hb h2)

theorem civLe_antisymm {a b : Civil} (ha : a.valid) (hb : b.valid)
    (h1 : civLe a b) (h2 : civLe b a) : a = b :=
  toDayNumber_inj ha hb
    (le_antisymm (toDayNumber_mono_le ha hb h1) (toDayNumber_mono_le hb ha h2))

theorem addDaysCivil_one (c : Civil) : addDaysCivil c 1 = civSucc c := by
  unfold addDaysCivil
  rw [if_pos (by omega : (0 : Int) ≤ 1)]
  rfl

theorem addDaysCivil_cast_succ (c : Civil) (i : Nat) :
    addDaysCivil c ((i + 1 : Nat) : Int) = addDaysCivil (civSucc c) (i : Int) := by
  unfold addDaysCivil
  rw [if_pos (by omega), if_pos (by omega)]
  have h1 : (((i + 1 : Nat) : Int)).toNat = i + 1 := by omega
  have h2 : (((i : Nat) : Int)).toNat = i := by omega
  rw [h1, h2, Function.iterate_succ_apply]

theorem sorted_head_le {l : List DayAttendance} (hs : List.Sorted rowLe l)
    {h : DayAttendance} (hh : l.head? = some h) {x : DayAttendance} (hx : x ∈ l) :
    strLe h.date x.date = true := by
  cases l with
  | nil => cases hx
  | cons a t =>
    obtain rfl : a = h := Option.some.inj hh
    rcases List.mem_cons.mp hx with rfl | hx2
    · exact strLe_refl _
    · exact List.rel_of_sorted_cons hs _ hx2

theorem sorted_le_getLast {l : List DayAttendance} (hs : List.Sorted rowLe l)
    {h : DayAttendance} (hh : l.getLast? = some h) {x : DayAttendance} (hx : x ∈ l) :
    strLe x.date h.date = true := by
  induction l with
  | nil => cases hx
  | cons a t ih =>
    cases t with
    | nil =>
      obtain rfl : a = h := by simpa using hh
      obtain rfl : x = a := by simpa using hx
      exact strLe_refl _
    | cons b t2 =>
      rw [List.getLast?_cons_cons] at hh
      rcases List.mem_cons.mp hx with rfl | hx2
      · have hmem : h ∈ b :: t2 := by
          obtain ⟨ys, hys⟩ := List.getLast?_eq_some_iff.mp hh
          rw [hys]
          simp
        exact List.rel_of_sorted_cons hs _ hmem
      · exact ih (List.pairwise_cons.mp hs).2 hh hx2

theorem lookupRow_perm {l l2 : List DayAttendance} (hp : l.Perm l2)
    (hnd : l.Pairwise (fun a b => a.date ≠ b.date)) (k : JStr) :
    lookupRow l k = lookupRow l2 k := by
  unfold lookupRow
  cases hf : l.find? (fun row => row.date == k) with
  | none =>
    rw [List.find?_eq_none] at hf
    symm
    rw [List.find?_eq_none]
    intro x hx
    exact hf x (hp.mem_iff.mpr hx)
  | some r =>
    have hr := List.find?_some hf
    have hrm := List.mem_of_find?_eq_some hf
    cases hf2 : l2.find? (fun row => row.date == k) with
    | none =>
      rw [List.find?_eq_none] at hf2
      exact absurd hr (hf2 r (hp.mem_iff.mp hrm))
    | some r2 =>
      have hr2 := List.find?_some hf2
      have hrm2 : r2 ∈ l := hp.mem_iff.mpr (List.mem_of_find?_eq_some hf2)
      simp only [beq_iff_eq] at hr hr2
      rcases eq_or_ne r r2 with rfl | hne
      · rfl
      · have hsymm : Symmetric (fun a b : DayAttendance => a.date ≠ b.date) :=
          fun _ _ h => Ne.symm h
        have hforall := List.Pairwise.forall hsymm hnd hrm hrm2 hne
        exact absurd (hr.trans hr2.symm) hforall

theorem lookupRow_date (m : List DayAttendance) (k : JStr) :
    ((lookupRow m k).getD ⟨k, emptyPrayers, none, []⟩).date = k := by
  unfold lookupRow
  cases hf : m.find? (fun row => row.date == k) with
  | none => rfl
  | some r =>
    simp only [Option.getD_some]
    simpa using List.find?_some hf

theorem expandLoop_eq (m : List DayAttendance) (e : Civil) (hve : e.valid)
    (hye : e.y ≤ 9999) :
    ∀ (k : Nat) (c : Civil), c.valid → 1000 ≤ c.y → civLe c e →
      k = (toDayNumber e - toDayNumber c).toNat + 1 →
      expandLoop m (fmtKey4 e) k (fmtKey4 c) =
        (List.range k).map
          (fun (i : Nat) =>
            (lookupRow m (fmtKey4 (addDaysCivil c (i : Int)))).getD
              ⟨fmtKey4 (addDaysCivil c (i : Int)), emptyPrayers, none, []⟩) := by
  intro k
  induction k with
  | zero =>
    intro c _ _ _ hk
    exact absurd hk (by omega)
  | succ k ih =>
    intro c hvc hyc hle hk
    have hcy_le : c.y ≤ e.y := civLe_year hle
    have hcond : strLe (fmtKey4 c) (fmtKey4 e) = true :=
      (strLe_fmtKey4_iff hvc hve (by omega) (by omega) (by omega) hye).mpr hle
    have htle := toDayNumber_mono_le hvc hve hle
    simp only [expandLoop]
    rw [if_pos hcond]
    rw [List.range_succ_eq_map, List.map_cons, List.map_map]
    refine congrArg₂ List.cons ?_ ?_
    · simp only [Nat.cast_zero, addDaysCivil_zero]
    · cases k with
      | zero =>
        simp only [expandLoop, List.range_zero, List.map_nil]
      | succ j =>
        have hlt : civLt c e := by
          rcases hle with h | rfl
          · exact h
          · exact absurd hk (by omega)
        have hsucc_le : civLe (civSucc c) e := civSucc_le_of_lt hvc hve hlt
        have hvsc := civSucc_valid hvc
        have hysc : 1000 ≤ (civSucc c).y := by
          have h1 := (civLt_def _ _).mp (civLt_civSucc c)
          omega
        have htsucc := toDayNumber_civSucc hvc
        have hcursor : addDaysKey (fmtKey4 c) 1 = fmtKey4 (civSucc c) := by
          rw [addDaysKey_fmtKey4 hvc (by omega), addDaysCivil_one,
            fmtKey4_eq_fmtKey hysc]
        rw [hcursor, ih (civSucc c) hvsc hysc hsucc_le (by omega)]
        apply List.map_congr_left
        intro i hi
        simp only [Function.comp_apply, Nat.succ_eq_add_one]
        rw [addDaysCivil_cast_succ]


/-- Counterexample to C4 as stated: two valid rows dated 0500-01-01 and
0500-01-31 span 31 inclusive days, yet the expansion returns a single row:
addDays formats the second cursor as "500-01-02" without a leading zero, and
that string is not below "0500-01-31" in the code-unit comparison the loop
uses, so the loop exits after the first day. -/
theorem expandAttendance_cex :
    (expandAttendance
      [⟨"0500-01-01".data, emptyPrayers, none, []⟩,
       ⟨"0500-01-31".data, emptyPrayers, none, []⟩]).length = 1 ∧
    (toDayNumber (⟨500, 1, 31⟩ : Civil) - toDayNumber ⟨500, 1, 1⟩).toNat + 1 = 31 := by
  exact ⟨by decide, by decide⟩

/-- C4 (amended): for nonempty rows whose dates are canonical
four-digit-year keys of valid dates between s and e (both present among the
dates) and pairwise distinct, the expansion is exactly one row per calendar
day from s to e inclusive — the stored row when the day is present, else a
synthesized placeholder with empty prayers, no fasting flag and empty
updatedAt — so its length is the inclusive day count and its dates ascend
strictly. Years below 1000 are excluded: addDays emits unpadded years,
which breaks the loop comparison (see the counterexample). -/
theorem expandAttendance_spec (rows : List DayAttendance) (s e : Civil)
    (hne : rows ≠ [])
    (hvs : s.valid) (hve : e.valid) (hys : 1000 ≤ s.y) (hye : e.y ≤ 9999)
    (hmem : ∀ r ∈ rows, ∃ c : Civil, c.valid ∧ 1000 ≤ c.y ∧ c.y ≤ 9999 ∧
      r.date = fmtKey4 c ∧ civLe s c ∧ civLe c e)
    (hstart : ∃ r ∈ rows, r.date = fmtKey4 s)
    (hend : ∃ r ∈ rows, r.date = fmtKey4 e)
    (hnodup : rows.Pairwise (fun a b => a.date ≠ b.date)) :
    expandAttendance rows =
      (List.range ((toDayNumber e - toDayNumber s).toNat + 1)).map
        (fun (i : Nat) =>
          (lookupRow rows (fmtKey4 (addDaysCivil s (i : Int)))).getD
            ⟨fmtKey4 (addDaysCivil s (i : Int)), emptyPrayers, none, []⟩) ∧
    (expandAttendance rows).length = (toDayNumber e - toDayNumber s).toNat + 1 ∧
    (expandAttendance rows).Pairwise (fun a b => strLt a.date b.date = true) := by
  have hperm : (sortRows rows).Perm rows := List.perm_insertionSort _ _
  have hsorted : List.Sorted rowLe (sortRows rows) := List.sorted_insertionSort _ _
  have hsne : sortRows rows ≠ [] := by
    intro h0
    rw [h0] at hperm
    exact hne (List.Perm.eq_nil hperm.symm)
  obtain ⟨rs, hrs_mem, hrs_date⟩ := hstart
  obtain ⟨re, hre_mem, hre_date⟩ := hend
  obtain ⟨cs, hcsv, hcs1, hcs2, hcs_date, hcs_ge, hcs_le⟩ := hmem rs hrs_mem
  have hsy2 : s.y ≤ 9999 := le_trans (civLe_year hcs_ge) hcs2
  have hcs_eq : cs = s := by
    apply fmtKey4_inj hcsv hvs (by omega) hcs2 (by omega) hsy2
    rw [← hcs_date, hrs_date]
  have hse : civLe s e := hcs_eq ▸ hcs_le
  have hey1 : 1000 ≤ e.y := le_trans hys (civLe_year hse)
  have hh := List.head?_eq_head hsne
  have hrh_rows : (sortRows rows).head hsne ∈ rows :=
    hperm.mem_iff.mp (List.head_mem hsne)
  obtain ⟨ch, hchv, hch1, hch2, hch_date, hch_ge, hch_le⟩ := hmem _ hrh_rows
  have h1 : strLe ((sortRows rows).head hsne).date rs.date = true :=
    sorted_head_le hsorted hh (hperm.mem_iff.mpr hrs_mem)
  rw [hch_date, hrs_date] at h1
  have hch_le_s : civLe ch s :=
    (strLe_fmtKey4_iff hchv hvs (by omega) hch2 (by omega) hsy2).mp h1
  have hch_eq : ch = s := civLe_antisymm hchv hvs hch_le_s hch_ge
  have hstartKey : ((sortRows rows).head hsne).date = fmtKey4 s := by
    rw [hch_date, hch_eq]
  have hl := List.getLast?_eq_getLast (sortRows rows) hsne
  have hrl_rows : (sortRows rows).getLast hsne ∈ rows :=
    hperm.mem_iff.mp (List.getLast_mem hsne)
  obtain ⟨cl, hclv, hcl1, hcl2, hcl_date, hcl_ge, hcl_le⟩ := hmem _ hrl_rows
  have h2 : strLe re.date ((sortRows rows).getLast hsne).date = true :=
    sorted_le_getLast hsorted hl (hperm.mem_iff.mpr hre_mem)
  rw [hcl_date, hre_date] at h2
  have he_le_cl : civLe e cl :=
    (strLe_fmtKey4_iff hve hclv (by omega) hye (by omega) hcl2).mp h2
  have hcl_eq : cl = e := civLe_antisymm hclv hve hcl_le he_le_cl
  have hendKey : ((sortRows rows).getLast hsne).date = fmtKey4 e := by
    rw [hcl_date, hcl_eq]
  have hfuel : expandFuel (fmtKey4 s) (fmtKey4 e) =
      (toDayNumber e - toDayNumber s).toNat + 1 := by
    unfold expandFuel
    rw [parseKeyParts_fmtKey4 hvs (by omega), parseKeyParts_fmtKey4 hve (by omega)]
  have hsymm : Symmetric (fun a b : DayAttendance => a.date ≠ b.date) :=
    fun _ _ h => Ne.symm h
  have hnd_sorted : (sortRows rows).Pairwise (fun a b => a.date ≠ b.date) :=
    (List.Perm.pairwise_iff (fun {_ _} h => Ne.symm h) hperm).mpr hnodup
  have hmain : expandAttendance rows =
      (List.range ((toDayNumber e - toDayNumber s).toNat + 1)).map
        (fun (i : Nat) =>
          (lookupRow rows (fmtKey4 (addDaysCivil s (i : Int)))).getD
            ⟨fmtKey4 (addDaysCivil s (i : Int)), emptyPrayers, none, []⟩) := by
    unfold expandAttendance
    rw [if_neg (by simp [List.isEmpty_iff, hne])]
    rw [hh, hl]
    simp only [Option.map_some', Option.getD_some]
    rw [hstartKey, hendKey, hfuel,
      expandLoop_eq (sortRows rows) e hve hye _ s hvs hys hse rfl]
    apply List.map_congr_left
    intro i hi
    rw [lookupRow_perm hperm hnd_sorted]
  refine ⟨hmain, ?_, ?_⟩
  · rw [hmain, List.length_map, List.length_range]
  · rw [hmain, List.pairwise_map]
    refine List.Pairwise.imp_of_mem ?_ (List.pairwise_lt_range _)
    intro i j hi hj hij
    rw [List.mem_range] at hi hj
    rw [lookupRow_date, lookupRow_date]
    have hvi := addDaysCivil_valid hvs (i : Int)
    have hvj := addDaysCivil_valid hvs (j : Int)
    have hti := toDayNumber_addDaysCivil hvs (i : Int)
    have htj := toDayNumber_addDaysCivil hvs (j : Int)
    have hlbi := addDaysCivil_year_lb hvs i
    have hlbj := addDaysCivil_year_lb hvs j
    have htse := toDayNumber_mono_le hvs hve hse
    have hubi : (addDaysCivil s (i : Int)).y ≤ 9999 := by
      have hle_e : civLe (addDaysCivil s (i : Int)) e :=
        civLe_of_toDayNumber_le hvi hve (by omega)
      exact le_trans (civLe_year hle_e) hye
    have hubj : (addDaysCivil s (j : Int)).y ≤ 9999 := by
      have hle_e : civLe (addDaysCivil s (j : Int)) e :=
        civLe_of_toDayNumber_le hvj hve (by omega)
      exact le_trans (civLe_year hle_e) hye
    rw [strLt_fmtKey4_iff hvi hvj (by omega) hubi (by omega) hubj]
    exact civLt_of_toDayNumber_lt hvi hvj (by omega)

/-- Witness for C4: rows for 2026-02-19 and 2026-02-21 expand to three days
with a synthesized empty placeholder for the missing 2026-02-20. -/
theorem expandAttendance_spec_witness :
    expandAttendance
        [⟨"2026-02-19".data, ⟨some true, none, none, none, none⟩, some true, "t".data⟩,
         ⟨"2026-02-21".data, emptyPrayers, some false, "u".data⟩] =
      [⟨"2026-02-19".data, ⟨some true, none, none, none, none⟩, some true, "t".data⟩,
       ⟨"2026-02-20".data, emptyPrayers, none, []⟩,
       ⟨"2026-02-21".data, emptyPrayers, some false, "u".data⟩] ∧
    (expandAttendance
        [⟨"2026-02-19".data, ⟨some true, none, none, none, none⟩, some true, "t".data⟩,
         ⟨"2026-02-21".data, emptyPrayers, some false, "u".data⟩]).length = 3 := by
  have h := expandAttendance_spec
    [⟨"2026-02-19".data, ⟨some true, none, none, none, none⟩, some true, "t".data⟩,
     ⟨"2026-02-21".data, emptyPrayers, some false, "u".data⟩]
    ⟨2026, 2, 19⟩ ⟨2026, 2, 21⟩
    (by decide)
    ⟨by decide, by decide, by decide, by decide⟩
    ⟨by decide, by decide, by decide, by decide⟩
    (by decide) (by decide)
    (by
      intro r hr
      rcases List.mem_cons.mp hr with rfl | hr2
      · exact ⟨⟨2026, 2, 19⟩, ⟨by decide, by decide, by decide, by decide⟩,
          by decide, by decide, by decide, Or.inr rfl,
          Or.inl (Or.inr ⟨rfl, Or.inr ⟨rfl, by decide⟩⟩)⟩
      · rcases List.mem_cons.mp hr2 with rfl | hr3
        · exact ⟨⟨2026, 2, 21⟩, ⟨by decide, by decide, by decide, by decide⟩,
            by decide, by decide, by decide,
            Or.inl (Or.inr ⟨rfl, Or.inr ⟨rfl, by decide⟩⟩), Or.inr rfl⟩
        · cases hr3)
    ⟨⟨"2026-02-19".data, ⟨some true, none, none, none, none⟩, some true, "t".data⟩,
      by decide, by decide⟩
    ⟨⟨"2026-02-21".data, emptyPrayers, some false, "u".data⟩, by decide, by decide⟩
    (by decide)
  constructor
  · rw [h.1]
    decide
  · rw [h.2.1]
    decide

end Roza
